import Mathlib

/-!
# Verification of the `sort` library (src/src/lib.rs)

This file gives a shallow embedding of every sorting routine in
`src/src/lib.rs` over `List α` for a linearly ordered element type `α`
(the Rust code is generic over `T : Ord`; `[Inhabited α]` supplies the
default value used by the total indexing function `List.getD`, which is
always applied in bounds in the embedded code, mirroring the fact that
the Rust code never indexes out of bounds — except for `selection_sort`
on the empty slice, where the out-of-domain behaviour is modelled
explicitly with `Option`).

Rust `usize` arithmetic notes: every subtraction performed by the
embedded code is guarded so that it cannot underflow (for example
`i - 1` only under `i != 0`), hence `Nat` truncated subtraction agrees
with it — with the single exception of `v.len() - 1` in
`selection_sort`, which underflows on the empty slice and makes the
call panic (debug: overflow panic; release: the wrapped bound makes the
first iteration read `v[0]` out of bounds).  That failure is modelled
by `Option`.

Loops that are not structurally recursive are written with an explicit
fuel argument; the top-level entry points pass a fuel that is proved
sufficient, so the fuel-exhaustion branch is never taken on any input.
-/

set_option linter.unusedSectionVars false

variable {α : Type} [LinearOrder α] [Inhabited α]

/-! ## Common helpers: swap, sortedness as stated in the spec -/

/-- Rust `<[T]>::swap(i, j)`: exchange the elements at positions `i` and `j`.
Every call site in the embedded code uses in-bounds indices. -/
def lswap (v : List α) (i j : Nat) : List α :=
  (v.set i (v.getD j default)).set j (v.getD i default)

/-- The spec's ordering invariant, stated exactly as written: for all
adjacent positions `i`, `element[i] <= element[i+1]`. -/
def sortedAdj (l : List α) : Prop :=
  ∀ i : Nat, i + 1 < l.length → l.getD i default ≤ l.getD (i + 1) default

theorem getD_eq_getElem_of_lt (l : List α) (i : Nat) (h : i < l.length) :
    l.getD i default = l[i] := by
  simp [List.getD_eq_getElem?_getD, List.getElem?_eq_getElem h]

theorem sorted_of_length_le_one {l : List α} (h : l.length ≤ 1) :
    List.Sorted (· ≤ ·) l := by
  match l with
  | [] => exact List.sorted_nil
  | [a] => exact List.sorted_singleton a
  | a :: b :: t => simp at h

theorem sortedAdj_iff_sorted (l : List α) :
    sortedAdj l ↔ List.Sorted (· ≤ ·) l := by
  rw [List.Sorted, ← List.chain'_iff_pairwise, List.chain'_iff_get]
  constructor
  · intro h i hi
    have hi1 : i + 1 < l.length := by omega
    have := h i hi1
    rwa [getD_eq_getElem_of_lt l i (by omega), getD_eq_getElem_of_lt l (i + 1) hi1] at this
  · intro h i hi
    have := h i (by omega)
    rwa [getD_eq_getElem_of_lt l i (by omega), getD_eq_getElem_of_lt l (i + 1) hi]

theorem length_lswap (v : List α) (i j : Nat) : (lswap v i j).length = v.length := by
  simp [lswap]

theorem set_getD_self (v : List α) (i : Nat) : v.set i (v.getD i default) = v := by
  by_cases h : i < v.length
  · rw [getD_eq_getElem_of_lt v i h, List.set_eq_take_cons_drop _ h,
      List.getElem_cons_drop v i h, List.take_append_drop]
  · exact List.set_eq_of_length_le (by omega)

theorem lswap_self (v : List α) (i : Nat) : lswap v i i = v := by
  unfold lswap
  rw [List.set_set, set_getD_self]

theorem count_lswap (v : List α) (i j : Nat) (hi : i < v.length) (hj : j < v.length)
    (a : α) : (lswap v i j).count a = v.count a := by
  by_cases hij : i = j
  · subst hij; rw [lswap_self]
  · unfold lswap
    have hj' : j < (v.set i (v.getD j default)).length := by simpa using hj
    have hd1 : (v.set i (v.getD j default))[j] = v[j] := by
      rw [List.getElem_set]; simp [hij]
    rw [List.count_set _ _ _ _ hj', List.count_set _ _ _ _ hi, hd1,
      getD_eq_getElem_of_lt v i hi, getD_eq_getElem_of_lt v j hj]
    by_cases h1 : v[i] = a
    · have hc : 1 ≤ v.count a := List.count_pos_iff.mpr (h1 ▸ List.getElem_mem hi)
      by_cases h2 : v[j] = a <;> simp [h1, h2] <;> omega
    · by_cases h2 : v[j] = a <;> simp [h1, h2] <;> omega

theorem lswap_perm (v : List α) (i j : Nat) (hi : i < v.length) (hj : j < v.length) :
    (lswap v i j).Perm v := by
  classical
  rw [List.perm_iff_count]
  intro a
  exact count_lswap v i j hi hj a

theorem getD_lswap (v : List α) (i j k : Nat) (hi : i < v.length) (hj : j < v.length) :
    (lswap v i j).getD k default =
      if k = j then v.getD i default
      else if k = i then v.getD j default
      else v.getD k default := by
  unfold lswap
  by_cases hk : k < v.length
  · have hk2 : k < (v.set i (v.getD j default)).length := by simpa using hk
    rw [getD_eq_getElem_of_lt _ k (by simpa using hk), List.getElem_set, List.getElem_set]
    by_cases h1 : k = j <;> by_cases h2 : k = i <;>
      simp_all [getD_eq_getElem_of_lt v i hi, getD_eq_getElem_of_lt v j hj,
        getD_eq_getElem_of_lt v k hk, eq_comm]
  · have h1 : k ≠ i := by omega
    have h2 : k ≠ j := by omega
    simp only [if_neg h2, if_neg h1]
    rw [List.getD_eq_default _ _ (by simp; omega), List.getD_eq_default _ _ (by omega)]

/-- `getD_lswap` with the index universally quantified after the bounds. -/
theorem getD_lswap_fn (v : List α) (i j : Nat) (hi : i < v.length) (hj : j < v.length) :
    ∀ k, (lswap v i j).getD k default =
      if k = j then v.getD i default
      else if k = i then v.getD j default
      else v.getD k default :=
  fun k => getD_lswap v i j k hi hj

/-! ## Insertion sort (src/src/lib.rs, lines 40-56)

```rust
pub fn insertion_sort<T: Ord>(v: &mut [T]) {
    for i in 1..v.len() {
        let mut j = i;
        while j > 0 && v[j - 1] > v[i] {
            j -= 1;
        }
        v[j..=i].rotate_right(1);
    }
}
```
-/

/-- The inner scan `while j > 0 && v[j - 1] > v[i] { j -= 1 }`, started at
`j = i` with `x = v[i]` (the list is not modified during the scan, so the
repeated read of `v[i]` is the constant `x`). -/
def insertScan (v : List α) (x : α) : Nat → Nat
  | 0 => 0
  | j + 1 => if x < v.getD j default then insertScan v x j else j + 1

/-- `v[j..=i].rotate_right(1)`: the element at `i` moves to position `j`,
the segment `v[j..i]` shifts one place right, everything else stays. -/
def rotSeg (v : List α) (j i : Nat) : List α :=
  v.take j ++ v.getD i default :: ((v.drop j).take (i - j)) ++ v.drop (i + 1)

/-- One iteration of `insertion_sort`'s outer `for` loop at index `i`. -/
def insertStep (v : List α) (i : Nat) : List α :=
  rotSeg v (insertScan v (v.getD i default) i) i

/-- The outer loop `for i in 1..v.len()`, with `k` remaining iterations. -/
def insertionGo : Nat → Nat → List α → List α
  | 0, _, v => v
  | k + 1, i, v => insertionGo k (i + 1) (insertStep v i)

/-- `insertion_sort` from src/src/lib.rs. -/
def insertion_sort (v : List α) : List α := insertionGo (v.length - 1) 1 v

theorem insertScan_le (v : List α) (x : α) (j : Nat) : insertScan v x j ≤ j := by
  induction j with
  | zero => simp [insertScan]
  | succ j ih =>
    unfold insertScan
    split
    · omega
    · omega

theorem insertScan_spec (v : List α) (x : α) (j : Nat) :
    (insertScan v x j = 0 ∨ v.getD (insertScan v x j - 1) default ≤ x) ∧
      ∀ t, insertScan v x j ≤ t → t < j → x < v.getD t default := by
  induction j with
  | zero =>
    constructor
    · left; simp [insertScan]
    · intro t _ ht; omega
  | succ j ih =>
    unfold insertScan
    split
    · rename_i hlt
      refine ⟨ih.1, ?_⟩
      intro t h1 h2
      rcases Nat.lt_or_ge t j with h | h
      · exact ih.2 t h1 h
      · have : t = j := by omega
        subst this; exact hlt
    · rename_i hge
      constructor
      · right; simpa using le_of_not_lt hge
      · intro t h1 h2; omega

example : insertion_sort ([3, 1, 2] : List Int) = [1, 2, 3] := by decide
example : insertion_sort ([] : List Int) = [] := by decide
example : insertion_sort ([5, 4, 3, 2, 1] : List Int) = [1, 2, 3, 4, 5] := by decide
example : insertion_sort ([2, 1, 2, 1] : List Int) = [1, 1, 2, 2] := by decide

theorem rotSeg_eq (v : List α) (j i : Nat) (hj : j ≤ i) :
    rotSeg v j i =
      (v.take i).take j ++ v.getD i default :: (v.take i).drop j ++ v.drop (i + 1) := by
  unfold rotSeg
  rw [List.take_take, List.drop_take, Nat.min_eq_left hj]

theorem rotSeg_perm (v : List α) (j i : Nat) (hj : j ≤ i) (hi : i < v.length) :
    (rotSeg v j i).Perm v := by
  rw [rotSeg_eq v j i hj]
  have hv : v = v.take i ++ v.getD i default :: v.drop (i + 1) := by
    rw [getD_eq_getElem_of_lt v i hi]
    conv_lhs => rw [← List.take_append_drop i v, List.drop_eq_getElem_cons hi]
  conv_rhs => rw [hv]
  conv_rhs => rw [← List.take_append_drop j (v.take i)]
  simp only [List.append_assoc]
  exact List.Perm.append_left _ List.perm_middle.symm

theorem length_rotSeg (v : List α) (j i : Nat) (hj : j ≤ i) (hi : i < v.length) :
    (rotSeg v j i).length = v.length :=
  (rotSeg_perm v j i hj hi).length_eq

theorem insertStep_perm (v : List α) (i : Nat) (hi : i < v.length) :
    (insertStep v i).Perm v :=
  rotSeg_perm v _ i (insertScan_le v _ i) hi

theorem insertStep_take_sorted (v : List α) (i : Nat) (hi : i < v.length)
    (hs : List.Sorted (· ≤ ·) (v.take i)) :
    List.Sorted (· ≤ ·) ((insertStep v i).take (i + 1)) := by
  have hti : (v.take i).length = i := by
    rw [List.length_take]; omega
  have hj : insertScan v (v.getD i default) i ≤ i := insertScan_le v _ i
  have hspec := insertScan_spec v (v.getD i default) i
  set x := v.getD i default with hxdef
  set j := insertScan v x i with hjdef
  rw [insertStep, ← hxdef, ← hjdef, rotSeg_eq v j i hj]
  have hA : ((v.take i).take j).length = j := by
    rw [List.length_take]; omega
  have hB : ((v.take i).drop j).length = i - j := by
    rw [List.length_drop]; omega
  have hassoc : (v.take i).take j ++ x :: (v.take i).drop j ++ v.drop (i + 1) =
      ((v.take i).take j ++ x :: (v.take i).drop j) ++ v.drop (i + 1) := by
    simp [List.append_assoc]
  rw [hassoc, List.take_left' (by simp [hA, hB]; omega)]
  -- membership facts about the three blocks
  have hxB : ∀ b ∈ (v.take i).drop j, x ≤ b := by
    intro b hb
    rcases List.mem_iff_getElem.mp hb with ⟨s, hs1, hs2⟩
    have hjs : j + s < i := by omega
    have : ((v.take i).drop j)[s] = v[j + s] := by
      rw [List.getElem_drop, List.getElem_take]
    rw [this] at hs2
    have := hspec.2 (j + s) (by omega) hjs
    rw [getD_eq_getElem_of_lt v (j + s) (by omega)] at this
    exact le_of_lt (hs2 ▸ this)
  have hAx : ∀ a ∈ (v.take i).take j, a ≤ x := by
    intro a ha
    rcases List.mem_iff_getElem.mp ha with ⟨s, hs1, hs2⟩
    have hsj : s < j := by omega
    have hj0 : j ≠ 0 := by omega
    have hj1x : v.getD (j - 1) default ≤ x := by
      rcases hspec.1 with h | h
      · exact absurd h hj0
      · exact h
    rw [getD_eq_getElem_of_lt v (j - 1) (by omega)] at hj1x
    have hav : a = v[s] := by
      rw [← hs2, List.getElem_take, List.getElem_take]
    have hsv : v[s] ≤ v[j - 1] := by
      rcases Nat.lt_or_ge s (j - 1) with h | h
      · have hp := List.pairwise_iff_getElem.mp hs s (j - 1) (by omega) (by omega) (by omega)
        rw [List.getElem_take, List.getElem_take] at hp
        exact hp
      · have : s = j - 1 := by omega
        subst this; exact le_refl _
    rw [hav]
    exact le_trans hsv hj1x
  rw [List.Sorted, List.pairwise_append]
  refine ⟨List.Pairwise.sublist (List.take_sublist _ _) hs, ?_, ?_⟩
  · rw [List.pairwise_cons]
    exact ⟨hxB, List.Pairwise.sublist (List.drop_sublist _ _) hs⟩
  · intro a ha b hb
    rcases List.mem_cons.mp hb with rfl | hb
    · exact hAx a ha
    · exact le_trans (hAx a ha) (hxB b hb)

theorem insertionGo_sorted_perm :
    ∀ (k i : Nat) (v : List α), v.length = i + k → 1 ≤ i →
      List.Sorted (· ≤ ·) (v.take i) →
      List.Sorted (· ≤ ·) (insertionGo k i v) ∧ (insertionGo k i v).Perm v := by
  intro k
  induction k with
  | zero =>
    intro i v hlen _ hs
    have : v.take i = v := List.take_of_length_le (by omega)
    rw [this] at hs
    exact ⟨hs, List.Perm.refl v⟩
  | succ k ih =>
    intro i v hlen hi1 hs
    have hi : i < v.length := by omega
    have hstep := insertStep_perm v i hi
    have hlen' : (insertStep v i).length = (i + 1) + k := by
      rw [hstep.length_eq]; omega
    have hs' := insertStep_take_sorted v i hi hs
    have := ih (i + 1) (insertStep v i) hlen' (by omega) hs'
    rw [insertionGo]
    exact ⟨this.1, this.2.trans hstep⟩

theorem insertion_sort_sorted (v : List α) : List.Sorted (· ≤ ·) (insertion_sort v) := by
  unfold insertion_sort
  rcases le_or_lt v.length 1 with h | h
  · have : v.length - 1 = 0 := by omega
    rw [this]
    exact sorted_of_length_le_one h
  · refine (insertionGo_sorted_perm (v.length - 1) 1 v (by omega) (by omega) ?_).1
    refine sorted_of_length_le_one ?_
    rw [List.length_take]; omega

theorem insertion_sort_perm (v : List α) : (insertion_sort v).Perm v := by
  unfold insertion_sort
  rcases le_or_lt v.length 1 with h | h
  · have : v.length - 1 = 0 := by omega
    rw [this]
    exact List.Perm.refl v
  · refine (insertionGo_sorted_perm (v.length - 1) 1 v (by omega) (by omega) ?_).2
    refine sorted_of_length_le_one ?_
    rw [List.length_take]; omega

theorem insertion_sort_length (v : List α) : (insertion_sort v).length = v.length :=
  (insertion_sort_perm v).length_eq

/-! ## Gnome sort (src/src/lib.rs, lines 4-14)

```rust
pub fn gnome_sort<T: Ord>(v: &mut [T]) {
    let mut i = 0;
    while i < v.len() {
        if i == 0 || v[i] >= v[i - 1] {
            i += 1;
        } else {
            v.swap(i, i - 1);
            i -= 1;
        }
    }
}
```

The loop's cursor moves both forward and backward, so the loop is
embedded with an explicit fuel; `gnome_sort` passes the fuel
`2 * inversions v + v.length + 1`, which the termination argument
(each swap removes exactly one inversion, each advance moves the cursor
forward) proves sufficient. -/

/-- Number of inverted pairs (i < j with `v[i] > v[j]`); the termination
measure of gnome sort's loop. -/
def inversions : List α → Nat
  | [] => 0
  | x :: l => l.countP (fun y => decide (y < x)) + inversions l

/-- The `while i < v.len()` loop of `gnome_sort`; `none` means the fuel ran
out (proved unreachable for the fuel used by `gnome_sort`). -/
def gnomeGo : Nat → Nat → List α → Option (List α)
  | 0, _, _ => none
  | fuel + 1, i, v =>
    if i < v.length then
      if i = 0 ∨ v.getD (i - 1) default ≤ v.getD i default then
        gnomeGo fuel (i + 1) v
      else
        gnomeGo fuel (i - 1) (lswap v i (i - 1))
    else
      some v

/-- `gnome_sort` from src/src/lib.rs. -/
def gnome_sort (v : List α) : Option (List α) :=
  gnomeGo (2 * inversions v + v.length + 1) 0 v

theorem lswap_cons (x : α) (v : List α) (i j : Nat) :
    lswap (x :: v) (i + 1) (j + 1) = x :: lswap v i j := by
  simp [lswap, List.getD_cons_succ]

theorem lswap_adjacent_decomp (A B : List α) (a b : α) :
    lswap (A ++ a :: b :: B) (A.length + 1) A.length = A ++ b :: a :: B := by
  induction A with
  | nil => simp [lswap, List.getD_cons_succ, List.getD_cons_zero]
  | cons x A ih =>
    have : (x :: A).length + 1 = (A.length + 1) + 1 := by simp
    rw [List.cons_append, this, List.length_cons, lswap_cons, ih, List.cons_append]

theorem inversions_swap_adjacent (A B : List α) (a b : α) (hba : b < a) :
    inversions (A ++ b :: a :: B) + 1 = inversions (A ++ a :: b :: B) := by
  induction A with
  | nil =>
    simp only [List.nil_append, inversions, List.countP_cons]
    have h1 : decide (b < a) = true := by simpa using hba
    have h2 : decide (a < b) = false := by simp [not_lt_of_gt hba]
    simp [h1, h2]
    omega
  | cons x A ih =>
    have hcount : List.countP (fun y => decide (y < x)) (A ++ b :: a :: B) =
        List.countP (fun y => decide (y < x)) (A ++ a :: b :: B) := by
      simp only [List.countP_append, List.countP_cons]
      omega
    simp only [List.cons_append, inversions, List.append_eq]
    omega

theorem take_prefix_sorted {v : List α} {i : Nat}
    (hs : List.Sorted (· ≤ ·) (v.take i)) (j : Nat) (hji : j ≤ i) :
    List.Sorted (· ≤ ·) (v.take j) := by
  rw [← Nat.min_eq_left hji, ← List.take_take]
  exact List.Pairwise.sublist (List.take_sublist _ _) hs

theorem sorted_take_succ {v : List α} {i : Nat} (hi : i < v.length)
    (hs : List.Sorted (· ≤ ·) (v.take i))
    (h : i = 0 ∨ v.getD (i - 1) default ≤ v.getD i default) :
    List.Sorted (· ≤ ·) (v.take (i + 1)) := by
  rw [List.take_succ, List.getElem?_eq_getElem hi]
  simp only [Option.toList_some]
  rw [List.Sorted, List.pairwise_append]
  refine ⟨hs, by simp, ?_⟩
  intro x hx b hb
  rcases List.mem_singleton.mp hb with rfl
  rcases List.mem_iff_getElem.mp hx with ⟨s, hs1, hs2⟩
  have hslen : s < i := by
    have := hs1
    rw [List.length_take] at this
    omega
  rcases h with h0 | hle
  · omega
  · have h1 : v[s] ≤ v[i - 1] := by
      rcases Nat.lt_or_ge s (i - 1) with hlt | hge
      · have hp := List.pairwise_iff_getElem.mp hs s (i - 1) (by rw [List.length_take]; omega)
          (by rw [List.length_take]; omega) hlt
        rw [List.getElem_take, List.getElem_take] at hp
        exact hp
      · have : s = i - 1 := by omega
        subst this; exact le_refl _
    have h2 : v[i - 1] ≤ v[i] := by
      rwa [getD_eq_getElem_of_lt v (i - 1) (by omega), getD_eq_getElem_of_lt v i hi] at hle
    have hxv : x = v[s] := by rw [← hs2, List.getElem_take]
    rw [hxv]
    exact le_trans h1 h2

theorem gnomeGo_spec :
    ∀ (fuel i : Nat) (v : List α),
      2 * inversions v + (v.length - i) < fuel →
      List.Sorted (· ≤ ·) (v.take i) →
      ∃ r, gnomeGo fuel i v = some r ∧ List.Sorted (· ≤ ·) r ∧ r.Perm v := by
  intro fuel
  induction fuel with
  | zero => intro i v hf; omega
  | succ fuel ih =>
    intro i v hf hs
    rw [gnomeGo]
    by_cases hi : i < v.length
    · rw [if_pos hi]
      by_cases hc : i = 0 ∨ v.getD (i - 1) default ≤ v.getD i default
      · rw [if_pos hc]
        exact ih (i + 1) v (by omega) (sorted_take_succ hi hs hc)
      · rw [if_neg hc]
        push_neg at hc
        obtain ⟨hi0, hgt⟩ := hc
        -- decompose v around positions i-1, i
        have hi1 : i - 1 < v.length := by omega
        have hveq : v = v.take (i - 1) ++ v[i - 1] :: v[i] :: v.drop (i + 1) := by
          conv_lhs => rw [← List.take_append_drop (i - 1) v,
            List.drop_eq_getElem_cons hi1]
          congr 2
          have : i - 1 + 1 = i := by omega
          rw [this, List.drop_eq_getElem_cons hi]
        have hlenA : (v.take (i - 1)).length = i - 1 := by
          rw [List.length_take]; omega
        have hswap : lswap v i (i - 1) = v.take (i - 1) ++ v[i] :: v[i - 1] :: v.drop (i + 1) := by
          have hgen := lswap_adjacent_decomp (v.take (i - 1)) (v.drop (i + 1)) (v[i - 1]) (v[i])
          rw [hlenA] at hgen
          have hi' : i - 1 + 1 = i := by omega
          rw [hi'] at hgen
          conv_lhs => rw [hveq]
          exact hgen
        have hba : v[i] < v[i - 1] := by
          rwa [getD_eq_getElem_of_lt v (i - 1) hi1, getD_eq_getElem_of_lt v i hi] at hgt
        have hinv : inversions (lswap v i (i - 1)) + 1 = inversions v := by
          rw [hswap]
          conv_rhs => rw [hveq]
          exact inversions_swap_adjacent _ _ _ _ hba
        have hlen : (lswap v i (i - 1)).length = v.length := length_lswap v i (i - 1)
        have hsorted' : List.Sorted (· ≤ ·) ((lswap v i (i - 1)).take (i - 1)) := by
          have hA : (lswap v i (i - 1)).take (i - 1) = v.take (i - 1) := by
            rw [hswap]
            exact List.take_left' hlenA
          rw [hA]
          exact take_prefix_sorted hs (i - 1) (by omega)
        obtain ⟨r, hr, hrs, hrp⟩ := ih (i - 1) (lswap v i (i - 1))
          (by rw [hlen]; omega) hsorted'
        exact ⟨r, hr, hrs, hrp.trans (lswap_perm v i (i - 1) hi hi1)⟩
    · rw [if_neg hi]
      refine ⟨v, rfl, ?_, List.Perm.refl v⟩
      rwa [List.take_of_length_le (by omega)] at hs

theorem gnome_sort_spec (v : List α) :
    ∃ r, gnome_sort v = some r ∧ List.Sorted (· ≤ ·) r ∧ r.Perm v :=
  gnomeGo_spec _ 0 v (by omega) (by simp)

example : gnome_sort ([3, 1, 2] : List Int) = some [1, 2, 3] := by decide
example : gnome_sort ([] : List Int) = some [] := by decide
example : gnome_sort ([2, 2, 1, 1] : List Int) = some [1, 1, 2, 2] := by decide

/-! ## Bubble sort (src/src/lib.rs, lines 20-34)

```rust
pub fn bubble_sort<T: Ord>(v: &mut [T]) {
    let mut n = v.len();
    while n > 0 {
        let mut nmax = 0;
        let mut i = 1;
        while i < n {
            if v[i - 1] > v[i] {
                v.swap(i - 1, i);
                nmax = i;
            }
            i += 1;
        }
        n = nmax;
    }
}
```

The embedding additionally counts the adjacent-pair comparisons
`v[i - 1] > v[i]` and the passes of the outer loop (the spec asks for an
instrumented comparison count); `bubble_sort` is the list component. -/

/-- Inner pass of `bubble_sort`: returns `(list, nmax, comparisons)`. -/
def bubblePassGo : Nat → Nat → Nat → Nat → List α → List α × Nat × Nat
  | 0, _, _, nmax, v => (v, nmax, 0)
  | k + 1, n, i, nmax, v =>
    if i < n then
      if v.getD i default < v.getD (i - 1) default then
        let r := bubblePassGo k n (i + 1) i (lswap v (i - 1) i)
        (r.1, r.2.1, r.2.2 + 1)
      else
        let r := bubblePassGo k n (i + 1) nmax v
        (r.1, r.2.1, r.2.2 + 1)
    else (v, nmax, 0)

/-- Outer `while n > 0` loop of `bubble_sort`:
returns `(list, comparisons, passes)`. -/
def bubbleGo : Nat → Nat → List α → List α × Nat × Nat
  | 0, _, v => (v, 0, 0)
  | fuel + 1, n, v =>
    if 0 < n then
      let p := bubblePassGo n n 1 0 v
      let r := bubbleGo fuel p.2.1 p.1
      (r.1, r.2.1 + p.2.2, r.2.2 + 1)
    else (v, 0, 0)

/-- `bubble_sort` from src/src/lib.rs, instrumented:
`(final list, total comparisons, passes)`. -/
def bubble_sort_instr (v : List α) : List α × Nat × Nat :=
  bubbleGo (v.length + 1) v.length v

/-- `bubble_sort` from src/src/lib.rs (the sorting effect alone). -/
def bubble_sort (v : List α) : List α := (bubble_sort_instr v).1

theorem getD_drop (l : List α) (i j : Nat) :
    (l.drop i).getD j default = l.getD (i + j) default := by
  simp [List.getD_eq_getElem?_getD, List.getElem?_drop]

theorem drop_lswap_of_lt (v : List α) (i j n : Nat) (hi : i < n) (hj : j < n) :
    (lswap v i j).drop n = v.drop n := by
  unfold lswap
  rw [List.drop_set, List.drop_set]
  simp [hi, hj]

theorem perm_take_of_perm_of_drop_eq {l₁ l₂ : List α} (n : Nat) (hp : l₁.Perm l₂)
    (hd : l₁.drop n = l₂.drop n) : (l₁.take n).Perm (l₂.take n) := by
  classical
  rw [List.perm_iff_count]
  intro a
  have h1 : l₁.count a = (l₁.take n).count a + (l₁.drop n).count a := by
    conv_lhs => rw [← List.take_append_drop n l₁]
    rw [List.count_append]
  have h2 : l₂.count a = (l₂.take n).count a + (l₂.drop n).count a := by
    conv_lhs => rw [← List.take_append_drop n l₂]
    rw [List.count_append]
  have h3 : l₁.count a = l₂.count a := List.perm_iff_count.mp hp a
  rw [hd] at h1
  omega

theorem bubblePassGo_spec :
    ∀ (k n i nmax : Nat) (v : List α),
      1 ≤ i → nmax < i → i ≤ n → n ≤ v.length → n ≤ k + i →
      (∀ t, nmax ≤ t → t + 1 < i → v.getD t default ≤ v.getD (t + 1) default) →
      (∀ s, s + 1 < i → v.getD s default ≤ v.getD (i - 1) default) →
      (∀ s, s < nmax → v.getD s default ≤ v.getD nmax default) →
      (bubblePassGo k n i nmax v).1.Perm v ∧
        (bubblePassGo k n i nmax v).1.drop n = v.drop n ∧
        (bubblePassGo k n i nmax v).2.1 < n ∧
        (∀ t, (bubblePassGo k n i nmax v).2.1 ≤ t → t + 1 < n →
          (bubblePassGo k n i nmax v).1.getD t default ≤
            (bubblePassGo k n i nmax v).1.getD (t + 1) default) ∧
        (∀ s, s < (bubblePassGo k n i nmax v).2.1 →
          (bubblePassGo k n i nmax v).1.getD s default ≤
            (bubblePassGo k n i nmax v).1.getD ((bubblePassGo k n i nmax v).2.1) default) ∧
        (bubblePassGo k n i nmax v).2.2 = n - i := by
  intro k
  induction k with
  | zero =>
    intro n i nmax v h1 h2 h3 h4 h5 hA hC hD
    have hin : i = n := by omega
    subst hin
    dsimp only [bubblePassGo]
    refine ⟨List.Perm.refl v, rfl, by omega, ?_, hD, by omega⟩
    intro t ht1 ht2
    exact hA t ht1 (by omega)
  | succ k ih =>
    intro n i nmax v h1 h2 h3 h4 h5 hA hC hD
    by_cases hin : i < n
    · by_cases hsw : v.getD i default < v.getD (i - 1) default
      · -- swap branch: nmax becomes i
        rw [bubblePassGo, if_pos hin, if_pos hsw]
        dsimp only
        have hi1 : i - 1 < v.length := by omega
        have hi2 : i < v.length := by omega
        have hgsw := getD_lswap_fn v (i - 1) i hi1 hi2
        -- the new max-prefix fact for the swapped list at boundary i
        have hCnew : ∀ s, s + 1 < i + 1 →
            (lswap v (i - 1) i).getD s default ≤
              (lswap v (i - 1) i).getD (i + 1 - 1) default := by
          intro s hs
          have htop : (lswap v (i - 1) i).getD (i + 1 - 1) default = v.getD (i - 1) default := by
            rw [show i + 1 - 1 = i from by omega, hgsw i]
            simp
          rw [htop]
          by_cases hsi1 : s = i - 1
          · rw [hgsw s, if_neg (by omega), if_pos hsi1]
            exact le_of_lt hsw
          · rw [hgsw s, if_neg (by omega), if_neg hsi1]
            exact hC s (by omega)
        have hrec := ih n (i + 1) i (lswap v (i - 1) i)
          (by omega) (by omega) (by omega) (by rw [length_lswap]; omega) (by omega)
          (fun t ht1 ht2 => absurd ht2 (by omega))
          hCnew
          (fun s hs => by
            have := hCnew s (by omega)
            rwa [show i + 1 - 1 = i from by omega] at this)
        obtain ⟨p1, p2, p3, p4, p5, p6⟩ := hrec
        refine ⟨p1.trans (lswap_perm v (i - 1) i hi1 hi2), ?_, p3, p4, p5, by omega⟩
        rw [p2, drop_lswap_of_lt v (i - 1) i n (by omega) hin]
      · -- no-swap branch: nmax unchanged
        rw [bubblePassGo, if_pos hin, if_neg hsw]
        dsimp only
        have hle : v.getD (i - 1) default ≤ v.getD i default := le_of_not_lt hsw
        have hrec := ih n (i + 1) nmax v (by omega) (by omega) (by omega) h4 (by omega)
          (fun t ht1 ht2 => by
            rcases Nat.lt_or_ge (t + 1) i with hlt | hge
            · exact hA t ht1 (by omega)
            · have het : t = i - 1 := by omega
              subst het
              rwa [show i - 1 + 1 = i from by omega])
          (fun s hs => by
            rw [show i + 1 - 1 = i from by omega]
            rcases Nat.lt_or_ge (s + 1) i with hlt | hge
            · exact le_trans (hC s hlt) hle
            · have hes : s = i - 1 := by omega
              subst hes
              exact hle)
          hD
        obtain ⟨p1, p2, p3, p4, p5, p6⟩ := hrec
        exact ⟨p1, p2, p3, p4, p5, by omega⟩
    · rw [bubblePassGo, if_neg hin]
      dsimp only
      have hien : i = n := by omega
      subst hien
      refine ⟨List.Perm.refl v, rfl, by omega, ?_, hD, by omega⟩
      intro t ht1 ht2
      exact hA t ht1 (by omega)

theorem bubbleGo_spec :
    ∀ (fuel n : Nat) (v : List α),
      n < fuel → n ≤ v.length →
      List.Sorted (· ≤ ·) (v.drop n) →
      (∀ x ∈ v.take n, ∀ y ∈ v.drop n, x ≤ y) →
      List.Sorted (· ≤ ·) (bubbleGo fuel n v).1 ∧ (bubbleGo fuel n v).1.Perm v := by
  intro fuel
  induction fuel with
  | zero => intro n v h; omega
  | succ fuel ih =>
    intro n v hf hn hs hcross
    rw [bubbleGo]
    by_cases hn0 : 0 < n
    · rw [if_pos hn0]
      dsimp only
      have hp := bubblePassGo_spec n n 1 0 v (by omega) (by omega) (by omega) hn (by omega)
        (fun t ht1 ht2 => absurd ht2 (by omega))
        (fun s hsx => absurd hsx (by omega))
        (fun s hsx => absurd hsx (by omega))
      obtain ⟨p1, p2, p3, p4, p5, _⟩ := hp
      have hlen1 : (bubblePassGo n n 1 0 v).1.length = v.length := p1.length_eq
      have htail : ∀ s, (bubblePassGo n n 1 0 v).1.getD (n + s) default =
          v.getD (n + s) default := by
        intro s
        rw [← getD_drop, p2, getD_drop]
      have htaken : ((bubblePassGo n n 1 0 v).1.take n).Perm (v.take n) :=
        perm_take_of_perm_of_drop_eq n p1 p2
      -- sortedness of the tail from the new cut point m
      have hJ1 : List.Sorted (· ≤ ·)
          ((bubblePassGo n n 1 0 v).1.drop (bubblePassGo n n 1 0 v).2.1) := by
        rw [← sortedAdj_iff_sorted]
        intro t ht
        rw [List.length_drop, hlen1] at ht
        rw [getD_drop, getD_drop]
        set m := (bubblePassGo n n 1 0 v).2.1 with hm
        rcases Nat.lt_or_ge (m + t + 1) n with hc1 | hc1
        · have := p4 (m + t) (by omega) (by omega)
          rwa [show m + (t + 1) = m + t + 1 from by omega]
        · rcases Nat.lt_or_ge (m + t) n with hc2 | hc2
          · -- boundary pair (n-1, n)
            have hmt : m + t = n - 1 := by omega
            have hnlt : n < v.length := by omega
            have hx : (bubblePassGo n n 1 0 v).1.getD (m + t) default ∈
                (bubblePassGo n n 1 0 v).1.take n := by
              rw [getD_eq_getElem_of_lt _ (m + t) (by omega)]
              have hb : m + t < ((bubblePassGo n n 1 0 v).1.take n).length := by
                rw [List.length_take]; omega
              have := List.getElem_mem hb
              rwa [List.getElem_take] at this
            have hx2 : (bubblePassGo n n 1 0 v).1.getD (m + t) default ∈ v.take n :=
              htaken.mem_iff.mp hx
            have hy : (bubblePassGo n n 1 0 v).1.getD (m + (t + 1)) default =
                v.getD n default := by
              have : m + (t + 1) = n + 0 := by omega
              rw [this, htail 0]
              simp
            rw [hy]
            have hyv : v.getD n default ∈ v.drop n := by
              rw [getD_eq_getElem_of_lt v n hnlt, List.drop_eq_getElem_cons hnlt]
              exact List.mem_cons_self _ _
            exact hcross _ hx2 _ hyv
          · -- both in the untouched sorted tail
            have e1 : m + t = n + (m + t - n) := by omega
            have e2 : m + (t + 1) = n + (m + t - n + 1) := by omega
            rw [e1, e2, htail, htail, ← getD_drop v, ← getD_drop v]
            have := (sortedAdj_iff_sorted (v.drop n)).mpr hs (m + t - n)
              (by rw [List.length_drop]; omega)
            exact this
      -- cross property at the new cut point m
      have hJ2 : ∀ x ∈ (bubblePassGo n n 1 0 v).1.take (bubblePassGo n n 1 0 v).2.1,
          ∀ y ∈ (bubblePassGo n n 1 0 v).1.drop (bubblePassGo n n 1 0 v).2.1, x ≤ y := by
        set m := (bubblePassGo n n 1 0 v).2.1 with hm
        intro x hx y hy
        have hmlen : m < (bubblePassGo n n 1 0 v).1.length := by omega
        have hxm : x ≤ (bubblePassGo n n 1 0 v).1.getD m default := by
          rcases List.mem_iff_getElem.mp hx with ⟨s, hs1, hs2⟩
          have hsm : s < m := by
            rw [List.length_take] at hs1; omega
          have := p5 s hsm
          rw [getD_eq_getElem_of_lt _ s (by omega)] at this
          rw [← hs2, List.getElem_take]
          exact this
        have hmy : (bubblePassGo n n 1 0 v).1.getD m default ≤ y := by
          rw [List.drop_eq_getElem_cons hmlen] at hy
          rcases List.mem_cons.mp hy with rfl | hy2
          · rw [getD_eq_getElem_of_lt _ m hmlen]
          · rw [List.drop_eq_getElem_cons hmlen] at hJ1
            have := (List.sorted_cons.mp hJ1).1 y hy2
            rwa [getD_eq_getElem_of_lt _ m hmlen]
        exact le_trans hxm hmy
      have hrec := ih (bubblePassGo n n 1 0 v).2.1 (bubblePassGo n n 1 0 v).1
        (by omega) (by omega) hJ1 hJ2
      exact ⟨hrec.1, hrec.2.trans p1⟩
    · rw [if_neg hn0]
      have : n = 0 := by omega
      subst this
      exact ⟨hs, List.Perm.refl v⟩

theorem bubble_sort_sorted (v : List α) : List.Sorted (· ≤ ·) (bubble_sort v) := by
  refine (bubbleGo_spec (v.length + 1) v.length v (by omega) (by omega) ?_ ?_).1
  · rw [List.drop_length]; exact List.sorted_nil
  · intro x hx y hy
    rw [List.drop_length] at hy
    exact absurd hy (List.not_mem_nil y)

theorem bubble_sort_perm (v : List α) : (bubble_sort v).Perm v := by
  refine (bubbleGo_spec (v.length + 1) v.length v (by omega) (by omega) ?_ ?_).2
  · rw [List.drop_length]; exact List.sorted_nil
  · intro x hx y hy
    rw [List.drop_length] at hy
    exact absurd hy (List.not_mem_nil y)

theorem bubblePassGo_sorted_input (v : List α) (hs : List.Sorted (· ≤ ·) v) :
    ∀ (k n i nmax : Nat), 1 ≤ i → n ≤ v.length → n ≤ k + i →
      bubblePassGo k n i nmax v = (v, nmax, n - i) := by
  intro k
  induction k with
  | zero =>
    intro n i nmax h1 h2 h3
    rw [bubblePassGo]
    have : n - i = 0 := by omega
    rw [this]
  | succ k ih =>
    intro n i nmax h1 h2 h3
    rw [bubblePassGo]
    by_cases hin : i < n
    · rw [if_pos hin]
      have hle : v.getD (i - 1) default ≤ v.getD i default := by
        rw [getD_eq_getElem_of_lt v (i - 1) (by omega), getD_eq_getElem_of_lt v i (by omega)]
        exact List.pairwise_iff_getElem.mp hs (i - 1) i (by omega) (by omega) (by omega)
      rw [if_neg (not_lt_of_le hle)]
      rw [ih n (i + 1) nmax (by omega) h2 (by omega)]
      dsimp only
      have hc : n - (i + 1) + 1 = n - i := by omega
      rw [hc]
    · rw [if_neg hin]
      have : n - i = 0 := by omega
      rw [this]

theorem bubbleGo_n_zero (fuel : Nat) (v : List α) : bubbleGo fuel 0 v = (v, 0, 0) := by
  cases fuel with
  | zero => rfl
  | succ fuel => rw [bubbleGo, if_neg (by omega)]

theorem bubble_instr_sorted_input (v : List α) (hs : List.Sorted (· ≤ ·) v)
    (h1 : 1 ≤ v.length) : bubble_sort_instr v = (v, v.length - 1, 1) := by
  unfold bubble_sort_instr
  rw [bubbleGo, if_pos (by omega)]
  dsimp only
  rw [bubblePassGo_sorted_input v hs v.length v.length 1 0 (by omega) (by omega) (by omega)]
  dsimp only
  rw [bubbleGo_n_zero]
  simp

example : bubble_sort ([3, 1, 2] : List Int) = [1, 2, 3] := by decide
example : bubble_sort ([] : List Int) = [] := by decide
example : bubble_sort_instr ([1, 2, 3, 4, 5] : List Int) = ([1, 2, 3, 4, 5], 4, 1) := by decide
example : bubble_sort ([5, 4, 3, 2, 1] : List Int) = [1, 2, 3, 4, 5] := by decide

/-! ## Selection sort (src/src/lib.rs, lines 91-104)

```rust
pub fn selection_sort<T: Ord>(v: &mut [T]) {
    for i in 0..v.len() - 1 {
        let mut min = i;
        let mut min_value = &v[i];
        for j in i + 1..v.len() {
            if v[j] < *min_value {
                min = j;
                min_value = &v[j];
            }
        }
        v.swap(i, min);
    }
}
```
-/

/-- Inner scan `for j in i + 1..v.len()`: the running minimum index (the
list is not modified during the scan, so `min_value` is always `v[min]`). -/
def selectMinGo : Nat → Nat → Nat → List α → Nat
  | 0, _, min, _ => min
  | k + 1, j, min, v =>
    if v.getD j default < v.getD min default then selectMinGo k (j + 1) j v
    else selectMinGo k (j + 1) min v

/-- One iteration of `selection_sort`'s outer loop at index `i`. -/
def selectStep (v : List α) (i : Nat) : List α :=
  lswap v i (selectMinGo (v.length - (i + 1)) (i + 1) i v)

/-- The outer loop `for i in 0..v.len() - 1`, with `k` remaining iterations. -/
def selectionGo : Nat → Nat → List α → List α
  | 0, _, v => v
  | k + 1, i, v => selectionGo k (i + 1) (selectStep v i)

/-- `selection_sort` from src/src/lib.rs.  The loop bound `v.len() - 1` is
computed in `usize` and underflows on the empty slice: a debug build
panics on the arithmetic overflow, a release build wraps the bound to
`2^64 - 1` and the first iteration then reads `v[0]` out of bounds — either
way the call panics instead of returning, which is modelled by `none`.
For a nonempty slice the loop runs `v.len() - 1` times. -/
def selection_sort (v : List α) : Option (List α) :=
  if v.length = 0 then none
  else some (selectionGo (v.length - 1) 0 v)

theorem getElem?_lswap_other (v : List α) (i j k : Nat) (hk1 : k ≠ i) (hk2 : k ≠ j) :
    (lswap v i j)[k]? = v[k]? := by
  unfold lswap
  rw [List.getElem?_set, List.getElem?_set]
  simp [Ne.symm hk1, Ne.symm hk2, hk1, hk2]

theorem take_lswap_of_le (v : List α) (i j n : Nat) (hn1 : n ≤ i) (hn2 : n ≤ j) :
    (lswap v i j).take n = v.take n := by
  apply List.ext_getElem?
  intro s
  rw [List.getElem?_take, List.getElem?_take]
  by_cases hs : s < n
  · rw [if_pos hs, if_pos hs, getElem?_lswap_other v i j s (by omega) (by omega)]
  · rw [if_neg hs, if_neg hs]

theorem selectMinGo_spec :
    ∀ (k j min : Nat) (v : List α), min < j → j + k = v.length → min < v.length →
      selectMinGo k j min v < v.length ∧
        v.getD (selectMinGo k j min v) default ≤ v.getD min default ∧
        (∀ t, j ≤ t → t < v.length →
          v.getD (selectMinGo k j min v) default ≤ v.getD t default) ∧
        (min ≤ selectMinGo k j min v) := by
  intro k
  induction k with
  | zero =>
    intro j min v h1 h2 h3
    rw [selectMinGo]
    exact ⟨h3, le_refl _, fun t ht1 ht2 => absurd ht2 (by omega), le_refl _⟩
  | succ k ih =>
    intro j min v h1 h2 h3
    rw [selectMinGo]
    by_cases hc : v.getD j default < v.getD min default
    · rw [if_pos hc]
      obtain ⟨q1, q2, q3, q4⟩ := ih (j + 1) j v (by omega) (by omega) (by omega)
      refine ⟨q1, le_trans q2 (le_of_lt hc), ?_, by omega⟩
      intro t ht1 ht2
      rcases Nat.lt_or_ge t (j + 1) with h | h
      · have : t = j := by omega
        subst this
        exact q2
      · exact q3 t h ht2
    · rw [if_neg hc]
      obtain ⟨q1, q2, q3, q4⟩ := ih (j + 1) min v (by omega) (by omega) h3
      refine ⟨q1, q2, ?_, q4⟩
      intro t ht1 ht2
      rcases Nat.lt_or_ge t (j + 1) with h | h
      · have : t = j := by omega
        subst this
        exact le_trans q2 (le_of_not_lt hc)
      · exact q3 t h ht2

theorem selectionGo_spec :
    ∀ (k i : Nat) (v : List α), i + k + 1 = v.length →
      List.Sorted (· ≤ ·) (v.take i) →
      (∀ x ∈ v.take i, ∀ y ∈ v.drop i, x ≤ y) →
      List.Sorted (· ≤ ·) (selectionGo k i v) ∧ (selectionGo k i v).Perm v := by
  intro k
  induction k with
  | zero =>
    intro i v hlen hs hcross
    rw [selectionGo]
    constructor
    · conv_rhs => rw [← List.take_append_drop i v]
      rw [List.Sorted, List.pairwise_append]
      refine ⟨hs, sorted_of_length_le_one (by rw [List.length_drop]; omega), hcross⟩
    · exact List.Perm.refl v
  | succ k ih =>
    intro i v hlen hs hcross
    rw [selectionGo]
    have hi : i < v.length := by omega
    obtain ⟨q1, q2, q3, q4⟩ := selectMinGo_spec (v.length - (i + 1)) (i + 1) i v
      (by omega) (by omega) hi
    set m := selectMinGo (v.length - (i + 1)) (i + 1) i v with hm
    have hmin_all : ∀ t, i ≤ t → t < v.length → v.getD m default ≤ v.getD t default := by
      intro t ht1 ht2
      rcases Nat.lt_or_ge t (i + 1) with h | h
      · have : t = i := by omega
        subst this
        exact q2
      · exact q3 t h ht2
    have hw : selectStep v i = lswap v i m := rfl
    have hwlen : (selectStep v i).length = v.length := by
      rw [hw, length_lswap]
    have hwperm : (selectStep v i).Perm v := by
      rw [hw]; exact lswap_perm v i m hi q1
    have hgw := getD_lswap_fn v i m hi q1
    have hwi : (selectStep v i).getD i default = v.getD m default := by
      rw [hw, hgw i]
      by_cases him : i = m
      · rw [if_pos him, him]
      · rw [if_neg him, if_pos rfl]
    have hwtake : (selectStep v i).take i = v.take i := by
      rw [hw]
      exact take_lswap_of_le v i m i (le_refl i) q4
    -- values in the new suffix are values of the old suffix
    have hwdrop_vals : ∀ t, i + 1 ≤ t → t < v.length →
        v.getD m default ≤ (selectStep v i).getD t default := by
      intro t ht1 ht2
      rw [hw, hgw t]
      by_cases h1 : t = m
      · rw [if_pos h1]
        exact q2
      · rw [if_neg h1]
        by_cases h2 : t = i
        · omega
        · rw [if_neg h2]
          exact hmin_all t (by omega) ht2
    -- sorted prefix of length i+1
    have hs' : List.Sorted (· ≤ ·) ((selectStep v i).take (i + 1)) := by
      rw [List.take_succ, List.getElem?_eq_getElem (by omega)]
      simp only [Option.toList_some]
      rw [List.Sorted, List.pairwise_append, hwtake]
      refine ⟨hs, by simp, ?_⟩
      intro x hx b hb
      rcases List.mem_singleton.mp hb with rfl
      have : (selectStep v i)[i] = (selectStep v i).getD i default :=
        (getD_eq_getElem_of_lt _ i (by omega)).symm
      rw [this, hwi]
      have hvm_mem : v.getD m default ∈ v.drop i := by
        rw [getD_eq_getElem_of_lt v m q1]
        apply List.mem_iff_getElem.mpr
        refine ⟨m - i, by rw [List.length_drop]; omega, ?_⟩
        rw [List.getElem_drop]
        simp only [Nat.add_sub_cancel' q4]
      exact hcross x hx _ hvm_mem
    -- cross property at i+1
    have hcross' : ∀ x ∈ (selectStep v i).take (i + 1),
        ∀ y ∈ (selectStep v i).drop (i + 1), x ≤ y := by
      intro x hx y hy
      have hy2 : ∃ t, i + 1 ≤ t ∧ t < v.length ∧ (selectStep v i).getD t default = y := by
        rcases List.mem_iff_getElem.mp hy with ⟨s, hs1, hs2⟩
        refine ⟨i + 1 + s, by omega, ?_, ?_⟩
        · rw [List.length_drop, hwlen] at hs1
          omega
        · rw [getD_eq_getElem_of_lt _ (i + 1 + s) (by rw [hwlen]; rw [List.length_drop, hwlen] at hs1; omega)]
          rw [← hs2, List.getElem_drop]
      obtain ⟨t, ht1, ht2, rfl⟩ := hy2
      have hxm : x ≤ v.getD m default := by
        rw [List.take_succ, List.getElem?_eq_getElem (by omega)] at hx
        simp only [Option.toList_some] at hx
        rcases List.mem_append.mp hx with hx1 | hx1
        · rw [hwtake] at hx1
          have hvm_mem : v.getD m default ∈ v.drop i := by
            rw [getD_eq_getElem_of_lt v m q1]
            apply List.mem_iff_getElem.mpr
            refine ⟨m - i, by rw [List.length_drop]; omega, ?_⟩
            rw [List.getElem_drop]
            simp only [Nat.add_sub_cancel' q4]
          exact hcross x hx1 _ hvm_mem
        · rcases List.mem_singleton.mp hx1 with rfl
          rw [← hwi, getD_eq_getElem_of_lt _ i (by omega)]
      exact le_trans hxm (hwdrop_vals t ht1 ht2)
    have := ih (i + 1) (selectStep v i) (by omega) hs' hcross'
    exact ⟨this.1, this.2.trans hwperm⟩

theorem selection_sort_spec (v : List α) (r : List α) (h : selection_sort v = some r) :
    List.Sorted (· ≤ ·) r ∧ r.Perm v := by
  unfold selection_sort at h
  by_cases h0 : v.length = 0
  · rw [if_pos h0] at h
    exact absurd h (by simp)
  · rw [if_neg h0] at h
    have hr : r = selectionGo (v.length - 1) 0 v := by
      injection h with h
      exact h.symm
    subst hr
    exact selectionGo_spec (v.length - 1) 0 v (by omega) (by simp) (by simp)

theorem selection_sort_empty : selection_sort ([] : List α) = none := rfl

theorem selection_sort_nonempty (v : List α) (h : v.length ≠ 0) :
    selection_sort v = some (selectionGo (v.length - 1) 0 v) := by
  unfold selection_sort
  rw [if_neg h]

example : selection_sort ([3, 1, 2] : List Int) = some [1, 2, 3] := by decide
example : selection_sort ([] : List Int) = none := by decide
example : selection_sort ([9] : List Int) = some [9] := by decide
example : selection_sort ([5, 4, 3, 2, 1] : List Int) = some [1, 2, 3, 4, 5] := by decide

/-! ## Shell sort (src/src/lib.rs, lines 60-84)

```rust
pub fn shell_sort<T: Ord + Copy>(v: &mut [T]) {
    let mut h = 1;
    while h <= v.len() / 9 {
        h = 3 * h + 1;
    }
    while h > 0 {
        let mut i = h;
        while i < v.len() {
            let mut j = i;
            let a = v[i];
            while j >= h && v[j - h] > a {
                v[j] = v[j - h];
                j -= h;
            }
            v[j] = a;
            i += 1;
        }
        h /= 3;
    }
}
```
-/

/-- The gap start loop `while h <= v.len() / 9 { h = 3 * h + 1 }` over a
length `n`, fuel-based (the fuel `n` used by `shellStart` is proved ample:
`h` grows by at least 2 per iteration). -/
def shellStartGo (n : Nat) : Nat → Nat → Nat
  | 0, h => h
  | f + 1, h => if h ≤ n / 9 then shellStartGo n f (3 * h + 1) else h

/-- The initial gap chosen by `shell_sort` for a sequence of length `n`. -/
def shellStart (n : Nat) : Nat := shellStartGo n n 1

/-- The shifting inner loop
`while j >= h && v[j - h] > a { v[j] = v[j - h]; j -= h }`,
returning the final list and the final `j`.  Fuel-based (`j` decreases by
`h ≥ 1` each iteration, so fuel `j` is ample). -/
def shellInnerGo (h : Nat) (a : α) : Nat → Nat → List α → List α × Nat
  | 0, j, v => (v, j)
  | f + 1, j, v =>
    if h ≤ j ∧ a < v.getD (j - h) default then
      shellInnerGo h a f (j - h) (v.set j (v.getD (j - h) default))
    else (v, j)

/-- One iteration of the gap-`h` pass at index `i`:
`let a = v[i]; (shift loop); v[j] = a`. -/
def shellStep (h : Nat) (v : List α) (i : Nat) : List α :=
  ((shellInnerGo h (v.getD i default) i i v).1).set
    (shellInnerGo h (v.getD i default) i i v).2 (v.getD i default)

/-- The gap-`h` pass `let mut i = h; while i < v.len() { .. i += 1 }`. -/
def shellPassGo (h : Nat) : Nat → Nat → List α → List α
  | 0, _, v => v
  | f + 1, i, v => if i < v.length then shellPassGo h f (i + 1) (shellStep h v i) else v

/-- The gap-`h` pass started at `i = h` with ample fuel. -/
def shellPass (h : Nat) (v : List α) : List α := shellPassGo h v.length h v

/-- The outer gap loop `while h > 0 { pass; h /= 3 }`. -/
def shellSortGo : Nat → Nat → List α → List α
  | 0, _, v => v
  | f + 1, h, v => if 0 < h then shellSortGo f (h / 3) (shellPass h v) else v

/-- `shell_sort` from src/src/lib.rs. -/
def shell_sort (v : List α) : List α :=
  shellSortGo (shellStart v.length + 1) (shellStart v.length) v

/-- The sequence of gap values taken by `shell_sort`'s outer loop on a
sequence of length `n`. -/
def shellGapsGo : Nat → Nat → List Nat
  | 0, _ => []
  | f + 1, h => if 0 < h then h :: shellGapsGo f (h / 3) else []

/-- The gaps used by `shell_sort` for length `n`, in order of use. -/
def shellGaps (n : Nat) : List Nat := shellGapsGo (shellStart n + 1) (shellStart n)

/-- The gap recurrence `h = 3 * h + 1` from `h = 1`: 1, 4, 13, 40, ... -/
def gapRec : Nat → Nat
  | 0 => 1
  | k + 1 => 3 * gapRec k + 1

theorem gapRec_pos (k : Nat) : 1 ≤ gapRec k := by
  cases k with
  | zero => exact le_refl 1
  | succ k => simp only [gapRec]; omega

theorem gapRec_lt_succ (k : Nat) : gapRec k < gapRec (k + 1) := by
  have := gapRec_pos k
  simp only [gapRec]; omega

theorem gapRec_strictMono {j k : Nat} (h : j < k) : gapRec j < gapRec k := by
  induction k with
  | zero => omega
  | succ k ih =>
    rcases Nat.lt_or_ge j k with h2 | h2
    · exact lt_trans (ih h2) (gapRec_lt_succ k)
    · have : j = k := by omega
      subst this
      exact gapRec_lt_succ j

theorem gapRec_ge (k : Nat) : k + 1 ≤ gapRec k := by
  induction k with
  | zero => exact le_refl 1
  | succ k ih => simp only [gapRec]; omega

theorem gapRec_succ_div3 (k : Nat) : gapRec (k + 1) / 3 = gapRec k := by
  show (3 * gapRec k + 1) / 3 = gapRec k
  omega

theorem shellStartGo_spec :
    ∀ (f k n : Nat), n / 9 < gapRec k + 2 * f → (∀ j, j < k → gapRec j ≤ n / 9) →
      ∃ K, k ≤ K ∧ shellStartGo n f (gapRec k) = gapRec K ∧ n / 9 < gapRec K ∧
        ∀ j, j < K → gapRec j ≤ n / 9 := by
  intro f
  induction f with
  | zero =>
    intro k n h1 h2
    exact ⟨k, le_refl k, rfl, by omega, h2⟩
  | succ f ih =>
    intro k n h1 h2
    rw [shellStartGo]
    by_cases hc : gapRec k ≤ n / 9
    · rw [if_pos hc]
      have hstep : (3 * gapRec k + 1) = gapRec (k + 1) := rfl
      rw [hstep]
      have hpos := gapRec_pos k
      obtain ⟨K, hK1, hK2, hK3, hK4⟩ := ih (k + 1) n (by simp only [gapRec]; omega)
        (by
          intro j hj
          rcases Nat.lt_or_ge j k with h | h
          · exact h2 j h
          · have : j = k := by omega
            subst this
            exact hc)
      exact ⟨K, by omega, hK2, hK3, hK4⟩
    · rw [if_neg hc]
      exact ⟨k, le_refl k, rfl, by omega, h2⟩

theorem shellStart_spec (n : Nat) :
    ∃ K, shellStart n = gapRec K ∧ n / 9 < gapRec K ∧ ∀ j, j < K → gapRec j ≤ n / 9 := by
  obtain ⟨K, _, h2, h3, h4⟩ := shellStartGo_spec n 0 n
    (by have hb := gapRec_pos 0; omega) (by intro j hj; omega)
  exact ⟨K, h2, h3, h4⟩

theorem shellGapsGo_gapRec :
    ∀ (K f : Nat), K + 1 ≤ f →
      shellGapsGo f (gapRec K) = ((List.range (K + 1)).reverse.map gapRec) := by
  intro K
  induction K with
  | zero =>
    intro f hf
    match f, hf with
    | f + 1, _ =>
      rw [shellGapsGo, if_pos (by exact gapRec_pos 0)]
      show 1 :: shellGapsGo f (1 / 3) = _
      have h13 : (1 : Nat) / 3 = 0 := by omega
      rw [h13]
      have : shellGapsGo f 0 = [] := by
        cases f with
        | zero => rfl
        | succ f => rw [shellGapsGo, if_neg (by omega)]
      rw [this]
      rfl
  | succ K ih =>
    intro f hf
    match f, hf with
    | f + 1, _ =>
      rw [shellGapsGo, if_pos (by have := gapRec_pos (K + 1); omega)]
      rw [gapRec_succ_div3, ih f (by omega)]
      simp [List.range_succ]

theorem shellGaps_spec (n : Nat) :
    ∃ K, shellStart n = gapRec K ∧ n / 9 < gapRec K ∧ (∀ j, j < K → gapRec j ≤ n / 9) ∧
      shellGaps n = ((List.range (K + 1)).reverse.map gapRec) := by
  obtain ⟨K, h1, h2, h3⟩ := shellStart_spec n
  refine ⟨K, h1, h2, h3, ?_⟩
  unfold shellGaps
  rw [h1]
  exact shellGapsGo_gapRec K (gapRec K + 1) (by have := gapRec_ge K; omega)

example : shellStart 9 = 4 := by decide
example : shellGaps 9 = [4, 1] := by decide
example : shellStart 90 = 13 := by decide
example : shellGaps 90 = [13, 4, 1] := by decide
example : shellStart 0 = 1 := by decide
example : shell_sort ([5, 3, 1, 4, 2] : List Int) = [1, 2, 3, 4, 5] := by decide
example : shell_sort ([] : List Int) = [] := by decide

theorem shell_shift_perm (v : List α) (j h : Nat) (a : α) (h2 : h ≤ j) (h1 : 1 ≤ h)
    (hj : j < v.length) :
    ((v.set j (v.getD (j - h) default)).set (j - h) a).Perm (v.set j a) := by
  classical
  rw [List.perm_iff_count]
  intro c
  have hjh : j - h < v.length := by omega
  have hne : j ≠ j - h := by omega
  have hlen2 : j - h < (v.set j (v.getD (j - h) default)).length := by simpa using hjh
  have hval : (v.set j (v.getD (j - h) default))[j - h] = v[j - h] := by
    rw [List.getElem_set, if_neg hne]
  rw [List.count_set _ _ _ _ hlen2, List.count_set _ _ _ _ hj, List.count_set _ _ _ _ hj,
    hval, getD_eq_getElem_of_lt v (j - h) hjh]
  by_cases p : (v[j] == c) = true <;> by_cases q : (v[j - h] == c) = true <;>
    by_cases r : (a == c) = true <;> simp [p, q, r] <;> omega

theorem shellInnerGo_spec (h : Nat) (a : α) (h1 : 1 ≤ h) :
    ∀ (f j : Nat) (v : List α), j < v.length →
      ((shellInnerGo h a f j v).1.set (shellInnerGo h a f j v).2 a).Perm (v.set j a) ∧
        (shellInnerGo h a f j v).2 ≤ j ∧
        (shellInnerGo h a f j v).1.length = v.length := by
  intro f
  induction f with
  | zero =>
    intro j v hj
    rw [shellInnerGo]
    exact ⟨List.Perm.refl _, le_refl _, rfl⟩
  | succ f ih =>
    intro j v hj
    rw [shellInnerGo]
    by_cases hc : h ≤ j ∧ a < v.getD (j - h) default
    · rw [if_pos hc]
      have hlen : (v.set j (v.getD (j - h) default)).length = v.length := by simp
      obtain ⟨q1, q2, q3⟩ := ih (j - h) (v.set j (v.getD (j - h) default)) (by rw [hlen]; omega)
      exact ⟨q1.trans (shell_shift_perm v j h a hc.1 h1 hj), by omega, by rw [q3, hlen]⟩
    · rw [if_neg hc]
      exact ⟨List.Perm.refl _, le_refl _, rfl⟩

theorem shellStep_perm (h : Nat) (v : List α) (i : Nat) (h1 : 1 ≤ h) (hi : i < v.length) :
    (shellStep h v i).Perm v ∧ (shellStep h v i).length = v.length := by
  unfold shellStep
  obtain ⟨q1, q2, q3⟩ := shellInnerGo_spec h (v.getD i default) h1 i i v hi
  rw [set_getD_self] at q1
  exact ⟨q1, q1.length_eq⟩

theorem shellPassGo_perm (h : Nat) (h1 : 1 ≤ h) :
    ∀ (f i : Nat) (v : List α), (shellPassGo h f i v).Perm v := by
  intro f
  induction f with
  | zero => intro i v; exact List.Perm.refl _
  | succ f ih =>
    intro i v
    rw [shellPassGo]
    by_cases hi : i < v.length
    · rw [if_pos hi]
      exact (ih (i + 1) (shellStep h v i)).trans (shellStep_perm h v i h1 hi).1
    · rw [if_neg hi]

theorem shellPass_perm (h : Nat) (h1 : 1 ≤ h) (v : List α) : (shellPass h v).Perm v :=
  shellPassGo_perm h h1 v.length h v

theorem shellSortGo_perm : ∀ (f h : Nat) (v : List α), (shellSortGo f h v).Perm v := by
  intro f
  induction f with
  | zero => intro h v; exact List.Perm.refl _
  | succ f ih =>
    intro h v
    rw [shellSortGo]
    by_cases hh : 0 < h
    · rw [if_pos hh]
      exact (ih (h / 3) (shellPass h v)).trans (shellPass_perm h hh v)
    · rw [if_neg hh]

theorem shell_sort_perm (v : List α) : (shell_sort v).Perm v := shellSortGo_perm _ _ v

theorem set_append_cons (A rest : List α) (x c : α) (n : Nat) (hn : A.length = n) :
    (A ++ x :: rest).set n c = A ++ c :: rest := by
  subst hn
  induction A with
  | nil => rfl
  | cons y A ih =>
    simp only [List.cons_append, List.length_cons, List.set_cons_succ, ih]

theorem getD_take_lt (l : List α) (n s : Nat) (h : s < n) :
    (l.take n).getD s default = l.getD s default := by
  simp [List.getD_eq_getElem?_getD, List.getElem?_take, h]

theorem segW_set (w : List α) (j i : Nat) (c : α) (hj : j < w.length) :
    (w.take (j + 1) ++ ((w.drop j).take (i - j) ++ w.drop (i + 1))).set j c =
      w.take j ++ (c :: ((w.drop j).take (i - j) ++ w.drop (i + 1))) := by
  rw [List.take_succ, List.getElem?_eq_getElem hj]
  simp only [Option.toList_some]
  rw [List.append_assoc, List.singleton_append]
  exact set_append_cons _ _ _ _ j (by rw [List.length_take]; omega)

theorem segW_pred (w : List α) (j' i : Nat) (hji : j' + 1 ≤ i) (hj : j' < w.length) :
    (w.drop j').take (i - j') = w.getD j' default :: (w.drop (j' + 1)).take (i - (j' + 1)) := by
  rw [List.drop_eq_getElem_cons hj, getD_eq_getElem_of_lt w j' hj]
  have : i - j' = (i - (j' + 1)) + 1 := by omega
  rw [this, List.take_succ_cons]

theorem shellInner_one_shape (w : List α) (i : Nat) (hi : i < w.length) :
    ∀ (j f : Nat), j ≤ f → j ≤ i →
      shellInnerGo 1 (w.getD i default) f j
          (w.take (j + 1) ++ ((w.drop j).take (i - j) ++ w.drop (i + 1))) =
        (w.take (insertScan w (w.getD i default) j + 1) ++
          ((w.drop (insertScan w (w.getD i default) j)).take
              (i - insertScan w (w.getD i default) j) ++ w.drop (i + 1)),
         insertScan w (w.getD i default) j) := by
  intro j
  induction j with
  | zero =>
    intro f _ _
    have hscan : insertScan w (w.getD i default) 0 = 0 := rfl
    rw [hscan]
    cases f with
    | zero => rw [shellInnerGo]
    | succ f => rw [shellInnerGo, if_neg (by omega)]
  | succ j' ihj =>
    intro f hf1 hf2
    match f, hf1 with
    | f + 1, _ =>
      rw [shellInnerGo]
      simp only [Nat.add_sub_cancel]
      have hjlen : j' + 1 ≤ w.length := by omega
      have hcond : (w.take (j' + 1 + 1) ++
          ((w.drop (j' + 1)).take (i - (j' + 1)) ++ w.drop (i + 1))).getD j' default =
          w.getD j' default := by
        rw [List.getD_append _ _ _ j' (by rw [List.length_take]; omega)]
        exact getD_take_lt w (j' + 1 + 1) j' (by omega)
      by_cases hc : w.getD i default < w.getD j' default
      · rw [if_pos ⟨by omega, by rw [hcond]; exact hc⟩]
        rw [hcond]
        have hset : (w.take (j' + 1 + 1) ++
            ((w.drop (j' + 1)).take (i - (j' + 1)) ++ w.drop (i + 1))).set (j' + 1)
              (w.getD j' default) =
            w.take (j' + 1) ++ ((w.drop j').take (i - j') ++ w.drop (i + 1)) := by
          rw [segW_set w (j' + 1) i _ (by omega)]
          rw [segW_pred w j' i (by omega) (by omega), List.cons_append]
        rw [hset, ihj f (by omega) (by omega)]
        have hscan : insertScan w (w.getD i default) (j' + 1) =
            insertScan w (w.getD i default) j' := by
          rw [insertScan, if_pos hc]
        rw [hscan]
      · rw [if_neg (fun hco => hc (hcond ▸ hco.2))]
        have hscan : insertScan w (w.getD i default) (j' + 1) = j' + 1 := by
          rw [insertScan, if_neg hc]
        rw [hscan]

theorem shellStep_one_eq_insertStep (w : List α) (i : Nat) (hi : i < w.length) :
    shellStep 1 w i = insertStep w i := by
  unfold shellStep insertStep
  have hW : w.take (i + 1) ++ ((w.drop i).take (i - i) ++ w.drop (i + 1)) = w := by
    simp
  have hsh := shellInner_one_shape w i hi i i (le_refl i) (le_refl i)
  rw [hW] at hsh
  rw [hsh]
  have hscan_le : insertScan w (w.getD i default) i ≤ i := insertScan_le w _ i
  rw [segW_set w (insertScan w (w.getD i default) i) i (w.getD i default) (by omega)]
  rw [rotSeg, List.append_assoc, List.cons_append]

theorem shellPassGo_one_eq_insertionGo :
    ∀ (f i : Nat) (w : List α), w.length ≤ f + i →
      shellPassGo 1 f i w = insertionGo (w.length - i) i w := by
  intro f
  induction f with
  | zero =>
    intro i w hlen
    have h0 : w.length - i = 0 := by omega
    rw [h0, shellPassGo, insertionGo]
  | succ f ih =>
    intro i w hlen
    rw [shellPassGo]
    by_cases hi : i < w.length
    · have hstep : shellStep 1 w i = insertStep w i := shellStep_one_eq_insertStep w i hi
      have hslen : (insertStep w i).length = w.length := (insertStep_perm w i hi).length_eq
      rw [if_pos hi, hstep, ih (i + 1) (insertStep w i) (by omega), hslen]
      have he : w.length - i = (w.length - (i + 1)) + 1 := by omega
      rw [he, insertionGo]
    · rw [if_neg hi]
      have h0 : w.length - i = 0 := by omega
      rw [h0, insertionGo]

theorem shellPass_one_eq_insertion_sort (w : List α) : shellPass 1 w = insertion_sort w := by
  unfold shellPass insertion_sort
  exact shellPassGo_one_eq_insertionGo w.length 1 w (by omega)

theorem shellSortGo_h_zero (f : Nat) (v : List α) : shellSortGo f 0 v = v := by
  cases f with
  | zero => rfl
  | succ f => rw [shellSortGo, if_neg (by omega)]

theorem shellSortGo_gapRec_eq_insertion :
    ∀ (K f : Nat) (v : List α), K + 1 ≤ f →
      ∃ w, w.Perm v ∧ shellSortGo f (gapRec K) v = insertion_sort w := by
  intro K
  induction K with
  | zero =>
    intro f v hf
    match f, hf with
    | f + 1, _ =>
      rw [shellSortGo, if_pos (show 0 < gapRec 0 from gapRec_pos 0)]
      have h0 : gapRec 0 / 3 = 0 := by
        show 1 / 3 = 0
        omega
      rw [h0, shellSortGo_h_zero]
      refine ⟨v, List.Perm.refl v, ?_⟩
      have h1 : gapRec 0 = 1 := rfl
      rw [h1, shellPass_one_eq_insertion_sort]
  | succ K ihK =>
    intro f v hf
    match f, hf with
    | f + 1, _ =>
      rw [shellSortGo, if_pos (by have := gapRec_pos (K + 1); omega)]
      rw [gapRec_succ_div3]
      obtain ⟨w, hw1, hw2⟩ := ihK f (shellPass (gapRec (K + 1)) v) (by omega)
      exact ⟨w, hw1.trans (shellPass_perm _ (gapRec_pos (K + 1)) v), hw2⟩

theorem shell_sort_eq_insertion (v : List α) :
    ∃ w, w.Perm v ∧ shell_sort v = insertion_sort w := by
  unfold shell_sort
  obtain ⟨K, h1, _, _⟩ := shellStart_spec v.length
  rw [h1]
  exact shellSortGo_gapRec_eq_insertion K (gapRec K + 1) v (by have := gapRec_ge K; omega)

theorem shell_sort_sorted (v : List α) : List.Sorted (· ≤ ·) (shell_sort v) := by
  obtain ⟨w, _, heq⟩ := shell_sort_eq_insertion v
  rw [heq]
  exact insertion_sort_sorted w

example : shell_sort ([9, 8, 7, 6, 5, 4, 3, 2, 1, 0] : List Int) =
    [0, 1, 2, 3, 4, 5, 6, 7, 8, 9] := by decide

/-! ## Heap sort (src/src/lib.rs, lines 197-230)

```rust
pub fn heap_sort<T: Ord>(v: &mut [T]) {
    fn sift_down<T: Ord>(v: &mut [T], start: usize) {
        let mut i = start;
        loop {
            let mut child = i * 2 + 1;
            if child >= v.len() {
                break;
            } else if child + 1 < v.len() && v[child + 1] > v[child] {
                child += 1;
            }
            if v[i] < v[child] {
                v.swap(i, child);
                i = child;
            } else {
                break;
            }
        }
    }
    for i in (0..=v.len() / 2).rev() {
        sift_down(v, i);
    }
    for i in (1..v.len()).rev() {
        v.swap(0, i);
        sift_down(&mut v[..i], 0);
    }
}
```
-/

/-- The child index `sift_down` compares against: `child + 1` when it
exists and holds the larger value, else `child = 2 * i + 1`. -/
def siftChild (v : List α) (i : Nat) : Nat :=
  if 2 * i + 2 < v.length ∧ v.getD (2 * i + 1) default < v.getD (2 * i + 2) default
  then 2 * i + 2 else 2 * i + 1

/-- The `loop` of `sift_down`, fuel-based (`i` strictly increases and the
loop only continues while `2 * i + 1 < v.len()`, so fuel `v.len()` is
ample). -/
def siftGo : Nat → List α → Nat → List α
  | 0, v, _ => v
  | f + 1, v, i =>
    if v.length ≤ 2 * i + 1 then v
    else if v.getD i default < v.getD (siftChild v i) default then
      siftGo f (lswap v i (siftChild v i)) (siftChild v i)
    else v

/-- `sift_down` from src/src/lib.rs. -/
def sift_down (v : List α) (start : Nat) : List α := siftGo v.length v start

/-- The max-heap property at index `i`, exactly as the spec states it:
if child `2i+1` (resp. `2i+2`) exists then the parent is ≥ that child. -/
def heapAt (v : List α) (i : Nat) : Prop :=
  (2 * i + 1 < v.length → v.getD (2 * i + 1) default ≤ v.getD i default) ∧
  (2 * i + 2 < v.length → v.getD (2 * i + 2) default ≤ v.getD i default)

/-- `p` lies in the subtree rooted at `c` (children of `i` at `2i+1`, `2i+2`). -/
inductive Desc : Nat → Nat → Prop
  | refl (c : Nat) : Desc c c
  | left {c p : Nat} : Desc (2 * c + 1) p → Desc c p
  | right {c p : Nat} : Desc (2 * c + 2) p → Desc c p

theorem Desc.ge {c p : Nat} (h : Desc c p) : c ≤ p := by
  induction h with
  | refl => exact le_refl _
  | left _ ih => omega
  | right _ ih => omega

theorem Desc.lb {c p : Nat} (h : Desc c p) : p = c ∨ 2 * c + 1 ≤ p := by
  cases h with
  | refl => exact Or.inl rfl
  | left h => have := h.ge; omega
  | right h => have := h.ge; omega

theorem desc_siftChild (v : List α) (i : Nat) : Desc i (siftChild v i) := by
  unfold siftChild
  by_cases h : 2 * i + 2 < v.length ∧ v.getD (2 * i + 1) default < v.getD (2 * i + 2) default
  · rw [if_pos h]
    exact Desc.right (Desc.refl _)
  · rw [if_neg h]
    exact Desc.left (Desc.refl _)

theorem desc_trans_siftChild {v : List α} {i p : Nat} (h : Desc (siftChild v i) p) :
    Desc i p := by
  revert h
  unfold siftChild
  by_cases hc : 2 * i + 2 < v.length ∧ v.getD (2 * i + 1) default < v.getD (2 * i + 2) default
  · rw [if_pos hc]
    exact fun h => Desc.right h
  · rw [if_neg hc]
    exact fun h => Desc.left h

theorem siftChild_lt (v : List α) (i : Nat) (h : 2 * i + 1 < v.length) :
    siftChild v i < v.length := by
  unfold siftChild
  by_cases hc : 2 * i + 2 < v.length ∧ v.getD (2 * i + 1) default < v.getD (2 * i + 2) default
  · rw [if_pos hc]; exact hc.1
  · rw [if_neg hc]; exact h

theorem siftChild_gt (v : List α) (i : Nat) : i < siftChild v i := by
  unfold siftChild
  by_cases hc : 2 * i + 2 < v.length ∧ v.getD (2 * i + 1) default < v.getD (2 * i + 2) default
  · rw [if_pos hc]; omega
  · rw [if_neg hc]; omega

theorem siftChild_lb (v : List α) (i : Nat) : 2 * i + 1 ≤ siftChild v i := by
  unfold siftChild; split <;> omega

theorem siftChild_ub (v : List α) (i : Nat) : siftChild v i ≤ 2 * i + 2 := by
  unfold siftChild; split <;> omega

theorem siftGo_length : ∀ (f : Nat) (v : List α) (i : Nat),
    (siftGo f v i).length = v.length := by
  intro f
  induction f with
  | zero => intro v i; rfl
  | succ f ih =>
    intro v i
    rw [siftGo]
    by_cases h1 : v.length ≤ 2 * i + 1
    · rw [if_pos h1]
    · rw [if_neg h1]
      by_cases h2 : v.getD i default < v.getD (siftChild v i) default
      · rw [if_pos h2, ih, length_lswap]
      · rw [if_neg h2]

theorem siftGo_perm : ∀ (f : Nat) (v : List α) (i : Nat), (siftGo f v i).Perm v := by
  intro f
  induction f with
  | zero => intro v i; exact List.Perm.refl _
  | succ f ih =>
    intro v i
    rw [siftGo]
    by_cases h1 : v.length ≤ 2 * i + 1
    · rw [if_pos h1]
    · rw [if_neg h1]
      by_cases h2 : v.getD i default < v.getD (siftChild v i) default
      · rw [if_pos h2]
        exact (ih _ _).trans
          (lswap_perm v i (siftChild v i) (by omega) (siftChild_lt v i (by omega)))
      · rw [if_neg h2]

theorem siftGo_frame : ∀ (f : Nat) (v : List α) (i p : Nat), ¬ Desc i p →
    (siftGo f v i).getD p default = v.getD p default := by
  intro f
  induction f with
  | zero => intro v i p _; rfl
  | succ f ih =>
    intro v i p hp
    rw [siftGo]
    by_cases h1 : v.length ≤ 2 * i + 1
    · rw [if_pos h1]
    · rw [if_neg h1]
      by_cases h2 : v.getD i default < v.getD (siftChild v i) default
      · rw [if_pos h2]
        have hnd : ¬ Desc (siftChild v i) p := fun h => hp (desc_trans_siftChild h)
        rw [ih _ _ _ hnd,
          getD_lswap v i (siftChild v i) p (by omega) (siftChild_lt v i (by omega))]
        rw [if_neg, if_neg]
        · intro h; exact hp (h ▸ Desc.refl i)
        · intro h; exact hp (h ▸ desc_siftChild v i)
      · rw [if_neg h2]

theorem siftGo_root : ∀ (f : Nat) (v : List α) (c : Nat), 1 ≤ f →
    (siftGo f v c).getD c default = v.getD c default ∨
      (2 * c + 1 < v.length ∧
        (siftGo f v c).getD c default = v.getD (siftChild v c) default) := by
  intro f
  match f with
  | 0 => intro v c h; omega
  | f + 1 =>
    intro v c _
    rw [siftGo]
    by_cases h1 : v.length ≤ 2 * c + 1
    · rw [if_pos h1]; exact Or.inl rfl
    · rw [if_neg h1]
      by_cases h2 : v.getD c default < v.getD (siftChild v c) default
      · rw [if_pos h2]
        right
        refine ⟨by omega, ?_⟩
        have hnd : ¬ Desc (siftChild v c) c := by
          intro h
          have := h.ge
          have := siftChild_gt v c
          omega
        rw [siftGo_frame f _ _ _ hnd,
          getD_lswap v c (siftChild v c) c (by omega) (siftChild_lt v c (by omega))]
        have hne : c ≠ siftChild v c := by have := siftChild_gt v c; omega
        rw [if_neg hne, if_pos rfl]
      · rw [if_neg h2]; exact Or.inl rfl

theorem heapAt_of_agree {v w : List α} {j : Nat} (hlen : w.length = v.length)
    (h0 : w.getD j default = v.getD j default)
    (h1 : w.getD (2 * j + 1) default = v.getD (2 * j + 1) default)
    (h2 : w.getD (2 * j + 2) default = v.getD (2 * j + 2) default)
    (h : heapAt v j) : heapAt w j := by
  unfold heapAt at h ⊢
  rw [hlen, h0, h1, h2]
  exact h

theorem siftGo_restore : ∀ (f : Nat) (v : List α) (start : Nat),
    v.length ≤ f + start →
    (∀ j, start < j → heapAt v j) →
    ∀ j, start ≤ j → heapAt (siftGo f v start) j := by
  intro f
  induction f with
  | zero =>
    intro v start hf hpre j hj
    rw [siftGo]
    exact ⟨fun h => absurd h (by omega), fun h => absurd h (by omega)⟩
  | succ f ih =>
    intro v start hf hpre j hj
    rw [siftGo]
    by_cases h1 : v.length ≤ 2 * start + 1
    · rw [if_pos h1]
      rcases Nat.lt_or_ge start j with hlt | hge
      · exact hpre j hlt
      · have hjs : j = start := by omega
        subst hjs
        exact ⟨fun h => absurd h (by omega), fun h => absurd h (by omega)⟩
    · rw [if_neg h1]
      have hch_lt : siftChild v start < v.length := siftChild_lt v start (by omega)
      have hch_gt : start < siftChild v start := siftChild_gt v start
      have hch_ub : siftChild v start ≤ 2 * start + 2 := siftChild_ub v start
      have hch_lb : 2 * start + 1 ≤ siftChild v start := siftChild_lb v start
      have hsib : ∀ s, 2 * start + 1 ≤ s → s ≤ 2 * start + 2 → s < v.length →
          v.getD s default ≤ v.getD (siftChild v start) default := by
        intro s hs1 hs2 hs3
        unfold siftChild
        by_cases hc : 2 * start + 2 < v.length ∧
            v.getD (2 * start + 1) default < v.getD (2 * start + 2) default
        · rw [if_pos hc]
          rcases Nat.lt_or_ge s (2 * start + 2) with h | h
          · have hse : s = 2 * start + 1 := by omega
            subst hse; exact le_of_lt hc.2
          · have hse : s = 2 * start + 2 := by omega
            subst hse; exact le_refl _
        · rw [if_neg hc]
          push_neg at hc
          rcases Nat.lt_or_ge s (2 * start + 2) with h | h
          · have hse : s = 2 * start + 1 := by omega
            subst hse; exact le_refl _
          · have hse : s = 2 * start + 2 := by omega
            subst hse
            exact hc hs3
      by_cases h2 : v.getD start default < v.getD (siftChild v start) default
      · rw [if_pos h2]
        have hreclen : (lswap v start (siftChild v start)).length = v.length :=
          length_lswap _ _ _
        have hgw := getD_lswap_fn v start (siftChild v start) (by omega) hch_lt
        have hpre' : ∀ j2, siftChild v start < j2 →
            heapAt (lswap v start (siftChild v start)) j2 := by
          intro j2 hj2
          refine heapAt_of_agree (by rw [hreclen]) ?_ ?_ ?_ (hpre j2 (by omega))
          · rw [hgw j2, if_neg (by omega), if_neg (by omega)]
          · rw [hgw _, if_neg (by omega), if_neg (by omega)]
          · rw [hgw _, if_neg (by omega), if_neg (by omega)]
        have hrec := ih (lswap v start (siftChild v start)) (siftChild v start)
          (by rw [hreclen]; omega) hpre'
        have hframe : ∀ p, ¬ Desc (siftChild v start) p →
            (siftGo f (lswap v start (siftChild v start)) (siftChild v start)).getD p default =
              (lswap v start (siftChild v start)).getD p default :=
          fun p hp => siftGo_frame f _ _ p hp
        have hlen2 : (siftGo f (lswap v start (siftChild v start))
            (siftChild v start)).length = v.length := by
          rw [siftGo_length, hreclen]
        have hnotdesc : ∀ q, q < 2 * (siftChild v start) + 1 → q ≠ siftChild v start →
            ¬ Desc (siftChild v start) q := by
          intro q hq1 hq2 hd
          rcases hd.lb with h | h
          · exact hq2 h
          · omega
        rcases Nat.lt_or_ge j (siftChild v start) with hjch | hjch
        · rcases Nat.lt_or_ge start j with hsj | hsj
          · -- start < j < chosen child: positions untouched
            have huntouched : ∀ q, start < q → q < 2 * (siftChild v start) + 1 →
                q ≠ siftChild v start →
                (siftGo f (lswap v start (siftChild v start))
                    (siftChild v start)).getD q default = v.getD q default := by
              intro q hq1 hq2 hq3
              rw [hframe q (hnotdesc q hq2 hq3), hgw q, if_neg hq3, if_neg (by omega)]
            refine heapAt_of_agree (by rw [hlen2]) ?_ ?_ ?_ (hpre j hsj)
            · exact huntouched j hsj (by omega) (by omega)
            · exact huntouched (2 * j + 1) (by omega) (by omega) (by omega)
            · exact huntouched (2 * j + 2) (by omega) (by omega) (by omega)
          · -- j = start
            have hjs : j = start := by omega
            rw [hjs]
            have hs0 : (siftGo f (lswap v start (siftChild v start))
                (siftChild v start)).getD start default = v.getD (siftChild v start) default := by
              rw [hframe start (fun h => by have := h.ge; omega), hgw start,
                if_neg (by omega), if_pos rfl]
            have hsch : (siftGo f (lswap v start (siftChild v start))
                (siftChild v start)).getD (siftChild v start) default ≤
                v.getD (siftChild v start) default := by
              rcases siftGo_root f (lswap v start (siftChild v start)) (siftChild v start)
                  (by omega) with hr | hr
              · rw [hr, hgw _, if_pos rfl]
                exact le_of_lt h2
              · obtain ⟨hrl, hr⟩ := hr
                rw [hr]
                have hg_lb : 2 * (siftChild v start) + 1 ≤
                    siftChild (lswap v start (siftChild v start)) (siftChild v start) :=
                  siftChild_lb _ _
                have hg_ub : siftChild (lswap v start (siftChild v start)) (siftChild v start) ≤
                    2 * (siftChild v start) + 2 :=
                  siftChild_ub _ _
                have hg_lt : siftChild (lswap v start (siftChild v start)) (siftChild v start) <
                    v.length := by
                  have := siftChild_lt (lswap v start (siftChild v start)) (siftChild v start) hrl
                  rwa [hreclen] at this
                rw [hgw _, if_neg (by omega), if_neg (by omega)]
                have hheap_ch := hpre (siftChild v start) hch_gt
                rcases Nat.lt_or_ge (siftChild (lswap v start (siftChild v start))
                    (siftChild v start)) (2 * (siftChild v start) + 2) with hgc | hgc
                · have hge : siftChild (lswap v start (siftChild v start))
                      (siftChild v start) = 2 * (siftChild v start) + 1 := by omega
                  rw [hge]
                  exact hheap_ch.1 (by rw [hge] at hg_lt; exact hg_lt)
                · have hge : siftChild (lswap v start (siftChild v start))
                      (siftChild v start) = 2 * (siftChild v start) + 2 := by omega
                  rw [hge]
                  exact hheap_ch.2 (by rw [hge] at hg_lt; exact hg_lt)
            have hchild : ∀ q, 2 * start + 1 ≤ q → q ≤ 2 * start + 2 → q < v.length →
                (siftGo f (lswap v start (siftChild v start))
                    (siftChild v start)).getD q default ≤
                  (siftGo f (lswap v start (siftChild v start))
                    (siftChild v start)).getD start default := by
              intro q hq1 hq2 hq3
              rw [hs0]
              by_cases hqc : q = siftChild v start
              · rw [hqc]
                exact hsch
              · have huq : (siftGo f (lswap v start (siftChild v start))
                    (siftChild v start)).getD q default = v.getD q default := by
                  rw [hframe q (hnotdesc q (by omega) hqc), hgw q, if_neg hqc,
                    if_neg (by omega)]
                rw [huq]
                exact hsib q hq1 hq2 hq3
            constructor
            · intro h
              rw [hlen2] at h
              exact hchild (2 * start + 1) (by omega) (by omega) h
            · intro h
              rw [hlen2] at h
              exact hchild (2 * start + 2) (by omega) (by omega) h
        · exact hrec j hjch
      · rw [if_neg h2]
        rcases Nat.lt_or_ge start j with hsj | hsj
        · exact hpre j hsj
        · have hjs : j = start := by omega
          rw [hjs]
          have hle : v.getD (siftChild v start) default ≤ v.getD start default :=
            le_of_not_lt h2
          exact ⟨fun h => le_trans (hsib (2 * start + 1) (by omega) (by omega) h) hle,
            fun h => le_trans (hsib (2 * start + 2) (by omega) (by omega) h) hle⟩

/-- Phase 1 of `heap_sort`: `for i in (0..=v.len() / 2).rev()`;
`heapifyGo (k + 1) v` performs the sifts at `k, k - 1, ..., 0`. -/
def heapifyGo : Nat → List α → List α
  | 0, v => v
  | k + 1, v => heapifyGo k (sift_down v k)

/-- The heapify phase of `heap_sort` (everything before the extraction loop). -/
def heapify (v : List α) : List α := heapifyGo (v.length / 2 + 1) v

theorem sift_down_length (v : List α) (start : Nat) :
    (sift_down v start).length = v.length := siftGo_length _ _ _

theorem sift_down_perm (v : List α) (start : Nat) : (sift_down v start).Perm v :=
  siftGo_perm _ _ _

theorem sift_down_restore (v : List α) (start : Nat)
    (hpre : ∀ j, start < j → heapAt v j) : ∀ j, start ≤ j → heapAt (sift_down v start) j :=
  siftGo_restore v.length v start (by omega) hpre

theorem heapifyGo_spec : ∀ (k : Nat) (v : List α),
    (∀ j, k ≤ j → heapAt v j) →
    (∀ j, heapAt (heapifyGo k v) j) ∧ (heapifyGo k v).Perm v := by
  intro k
  induction k with
  | zero =>
    intro v h
    exact ⟨fun j => h j (by omega), List.Perm.refl v⟩
  | succ k ih =>
    intro v h
    rw [heapifyGo]
    have hstep := sift_down_restore v k (fun j hj => h j (by omega))
    have := ih (sift_down v k) hstep
    exact ⟨this.1, this.2.trans (sift_down_perm v k)⟩

theorem heapify_heap (v : List α) : ∀ j, heapAt (heapify v) j := by
  refine (heapifyGo_spec (v.length / 2 + 1) v ?_).1
  intro j hj
  exact ⟨fun h => absurd h (by omega), fun h => absurd h (by omega)⟩

theorem heapify_perm (v : List α) : (heapify v).Perm v :=
  (heapifyGo_spec (v.length / 2 + 1) v (fun j hj =>
    ⟨fun h => absurd h (by omega), fun h => absurd h (by omega)⟩)).2

theorem heapify_length (v : List α) : (heapify v).length = v.length :=
  (heapify_perm v).length_eq

/-- One step of phase 2 at boundary `i`: `v.swap(0, i)` followed by
`sift_down(&mut v[..i], 0)` (the prefix is repaired in place, the tail is
untouched). -/
def heapExtractStep (v : List α) (i : Nat) : List α :=
  sift_down ((lswap v 0 i).take i) 0 ++ (lswap v 0 i).drop i

/-- Phase 2 of `heap_sort`: `for i in (1..v.len()).rev()`;
`heapPhase2 k v` performs the steps at `i = k, k - 1, ..., 1`. -/
def heapPhase2 : Nat → List α → List α
  | 0, v => v
  | k + 1, v => heapPhase2 k (heapExtractStep v (k + 1))

/-- `heap_sort` from src/src/lib.rs. -/
def heap_sort (v : List α) : List α := heapPhase2 (v.length - 1) (heapify v)

/-- In a max-heap the root is maximal. -/
theorem heap_root_max (l : List α) (hheap : ∀ j, heapAt l j) :
    ∀ t, t < l.length → l.getD t default ≤ l.getD 0 default := by
  intro t
  induction t using Nat.strong_induction_on with
  | _ t ih =>
    intro ht
    match t with
    | 0 => exact le_refl _
    | t + 1 =>
      have hp : (t + 1 - 1) / 2 < t + 1 := by omega
      have hchild : t + 1 = 2 * ((t + 1 - 1) / 2) + 1 ∨ t + 1 = 2 * ((t + 1 - 1) / 2) + 2 := by
        omega
      have hstep : l.getD (t + 1) default ≤ l.getD ((t + 1 - 1) / 2) default := by
        rcases hchild with h | h
        · conv_lhs => rw [h]
          exact (hheap ((t + 1 - 1) / 2)).1 (by omega)
        · conv_lhs => rw [h]
          exact (hheap ((t + 1 - 1) / 2)).2 (by omega)
      exact le_trans hstep (ih ((t + 1 - 1) / 2) hp (by omega))

theorem heap_root_max_mem (l : List α) (hheap : ∀ j, heapAt l j) :
    ∀ x ∈ l, x ≤ l.getD 0 default := by
  intro x hx
  rcases List.mem_iff_getElem.mp hx with ⟨t, ht, rfl⟩
  rw [← getD_eq_getElem_of_lt l t ht]
  exact heap_root_max l hheap t ht

theorem heapPhase2_spec : ∀ (k : Nat) (v : List α), k < v.length →
    (∀ j, heapAt (v.take (k + 1)) j) →
    List.Sorted (· ≤ ·) (v.drop (k + 1)) →
    (∀ x ∈ v.take (k + 1), ∀ y ∈ v.drop (k + 1), x ≤ y) →
    List.Sorted (· ≤ ·) (heapPhase2 k v) ∧ (heapPhase2 k v).Perm v := by
  intro k
  induction k with
  | zero =>
    intro v hk hheap hsorted hcross
    rw [heapPhase2]
    constructor
    · rw [← List.take_append_drop 1 v, List.Sorted, List.pairwise_append]
      exact ⟨sorted_of_length_le_one (by rw [List.length_take]; omega), hsorted, hcross⟩
    · exact List.Perm.refl v
  | succ k ih =>
    intro v hk hheap hsorted hcross
    rw [heapPhase2]
    have hwlen : (lswap v 0 (k + 1)).length = v.length := length_lswap _ _ _
    have hgw := getD_lswap_fn v 0 (k + 1) (by omega) (by omega)
    have hA_len : ((lswap v 0 (k + 1)).take (k + 1)).length = k + 1 := by
      rw [List.length_take]; omega
    have hA'_len : (sift_down ((lswap v 0 (k + 1)).take (k + 1)) 0).length = k + 1 := by
      rw [sift_down_length, hA_len]
    have hnew_take : (heapExtractStep v (k + 1)).take (k + 1) =
        sift_down ((lswap v 0 (k + 1)).take (k + 1)) 0 := by
      unfold heapExtractStep
      exact List.take_left' hA'_len
    have hnew_drop : (heapExtractStep v (k + 1)).drop (k + 1) =
        (lswap v 0 (k + 1)).drop (k + 1) := by
      unfold heapExtractStep
      exact List.drop_left' hA'_len
    have hwdrop2 : (lswap v 0 (k + 1)).drop (k + 2) = v.drop (k + 2) :=
      drop_lswap_of_lt v 0 (k + 1) (k + 2) (by omega) (by omega)
    have hwtop : (lswap v 0 (k + 1)).getD (k + 1) default = v.getD 0 default := by
      rw [hgw (k + 1), if_pos rfl]
    have hwdrop : (lswap v 0 (k + 1)).drop (k + 1) = v.getD 0 default :: v.drop (k + 2) := by
      rw [List.drop_eq_getElem_cons (by omega : k + 1 < (lswap v 0 (k + 1)).length), hwdrop2]
      congr 1
      rw [← getD_eq_getElem_of_lt _ (k + 1) (by omega)]
      exact hwtop
    have hv0_mem : v.getD 0 default ∈ v.take (k + 2) := by
      apply List.mem_iff_getElem.mpr
      refine ⟨0, by rw [List.length_take]; omega, ?_⟩
      rw [List.getElem_take, ← getD_eq_getElem_of_lt v 0 (by omega)]
    -- heap property on the shortened prefix before sifting
    have hApre : ∀ j, 0 < j → heapAt ((lswap v 0 (k + 1)).take (k + 1)) j := by
      intro j hj
      have hgA : ∀ t, 0 < t → t < k + 1 →
          ((lswap v 0 (k + 1)).take (k + 1)).getD t default = v.getD t default := by
        intro t ht1 ht2
        rw [getD_take_lt _ _ _ ht2, hgw t, if_neg (by omega), if_neg (by omega)]
      constructor
      · intro h
        rw [hA_len] at h
        have h1 := (hheap j).1 (by rw [List.length_take]; omega)
        rw [getD_take_lt _ _ _ (by omega : 2 * j + 1 < k + 2),
          getD_take_lt _ _ _ (by omega : j < k + 2)] at h1
        rw [hgA (2 * j + 1) (by omega) h, hgA j (by omega) (by omega)]
        exact h1
      · intro h
        rw [hA_len] at h
        have h1 := (hheap j).2 (by rw [List.length_take]; omega)
        rw [getD_take_lt _ _ _ (by omega : 2 * j + 2 < k + 2),
          getD_take_lt _ _ _ (by omega : j < k + 2)] at h1
        rw [hgA (2 * j + 2) (by omega) h, hgA j (by omega) (by omega)]
        exact h1
    have hA'heap : ∀ j, heapAt (sift_down ((lswap v 0 (k + 1)).take (k + 1)) 0) j :=
      fun j => sift_down_restore _ 0 hApre j (by omega)
    -- membership transfer from the new prefix to the old one
    have hmem_xfer : ∀ x ∈ sift_down ((lswap v 0 (k + 1)).take (k + 1)) 0,
        x ∈ v.take (k + 2) := by
      intro x hx
      have hx1 : x ∈ (lswap v 0 (k + 1)).take (k + 1) :=
        (sift_down_perm _ 0).mem_iff.mp hx
      have hx2 : x ∈ (lswap v 0 (k + 1)).take (k + 2) := by
        have hsub : List.Sublist ((lswap v 0 (k + 1)).take (k + 1))
            ((lswap v 0 (k + 1)).take (k + 2)) := by
          rw [← Nat.min_eq_left (by omega : k + 1 ≤ k + 2), ← List.take_take]
          exact List.take_sublist _ _
        exact hsub.mem hx1
      have hperm : ((lswap v 0 (k + 1)).take (k + 2)).Perm (v.take (k + 2)) :=
        perm_take_of_perm_of_drop_eq (k + 2) (lswap_perm v 0 (k + 1) (by omega) (by omega))
          hwdrop2
      exact hperm.mem_iff.mp hx2
    -- the new state satisfies the induction hypotheses at k
    have hroot_max := heap_root_max_mem (v.take (k + 2)) hheap
    have htake_getD : (v.take (k + 2)).getD 0 default = v.getD 0 default :=
      getD_take_lt v (k + 2) 0 (by omega)
    have hnew_len : (heapExtractStep v (k + 1)).length = v.length := by
      unfold heapExtractStep
      rw [List.length_append, hA'_len, List.length_drop, hwlen]
      omega
    have hih := ih (heapExtractStep v (k + 1)) (by omega)
      (by
        intro j
        rw [hnew_take]
        exact hA'heap j)
      (by
        rw [hnew_drop, hwdrop]
        rw [List.Sorted, List.pairwise_cons]
        refine ⟨?_, hsorted⟩
        intro b hb
        exact hcross _ hv0_mem b hb)
      (by
        intro x hx y hy
        rw [hnew_take] at hx
        rw [hnew_drop, hwdrop] at hy
        have hx2 := hmem_xfer x hx
        rcases List.mem_cons.mp hy with rfl | hy2
        · have := hroot_max x hx2
          rwa [htake_getD] at this
        · exact hcross x hx2 y hy2)
    refine ⟨hih.1, hih.2.trans ?_⟩
    -- heapExtractStep v (k+1) ~ v
    have hstep_perm : (heapExtractStep v (k + 1)).Perm v := by
      unfold heapExtractStep
      have h1 : (sift_down ((lswap v 0 (k + 1)).take (k + 1)) 0 ++
          (lswap v 0 (k + 1)).drop (k + 1)).Perm
          ((lswap v 0 (k + 1)).take (k + 1) ++ (lswap v 0 (k + 1)).drop (k + 1)) :=
        List.Perm.append (sift_down_perm _ 0) (List.Perm.refl _)
      rw [List.take_append_drop] at h1
      exact h1.trans (lswap_perm v 0 (k + 1) (by omega) (by omega))
    exact hstep_perm

theorem heap_sort_sorted_perm (v : List α) :
    List.Sorted (· ≤ ·) (heap_sort v) ∧ (heap_sort v).Perm v := by
  unfold heap_sort
  by_cases h0 : v.length = 0
  · have hnil : v = [] := List.length_eq_zero.mp h0
    subst hnil
    have hred : heapPhase2 (([] : List α).length - 1) (heapify ([] : List α)) = [] := by
      simp [heapify, heapifyGo, sift_down, siftGo, heapPhase2]
    rw [hred]
    exact ⟨List.sorted_nil, List.Perm.refl _⟩
  · have hlen : (heapify v).length = v.length := heapify_length v
    have hk : v.length - 1 < (heapify v).length := by omega
    have hsp := heapPhase2_spec (v.length - 1) (heapify v) hk
      (by
        intro j
        have he : v.length - 1 + 1 = v.length := by omega
        rw [he, ← hlen, List.take_length]
        exact heapify_heap v j)
      (by
        have he : v.length - 1 + 1 = v.length := by omega
        rw [he, ← hlen, List.drop_length]
        exact List.sorted_nil)
      (by
        intro x hx y hy
        have he : v.length - 1 + 1 = v.length := by omega
        rw [he, ← hlen, List.drop_length] at hy
        exact absurd hy (List.not_mem_nil y))
    exact ⟨hsp.1, hsp.2.trans (heapify_perm v)⟩

example : heap_sort ([5, 3, 1, 4, 2] : List Int) = [1, 2, 3, 4, 5] := by decide
example : heap_sort ([] : List Int) = [] := by decide
example : heap_sort ([7, 7, 7, 1, 9] : List Int) = [1, 7, 7, 7, 9] := by decide
example : (heapify ([5, 3, 1, 4, 2] : List Int)) = [5, 4, 1, 3, 2] := by decide

/-! ## Merge (src/src/lib.rs, lines 233-245)

```rust
fn merge<T: Ord + Clone>(from: &[T], half: usize, to: &mut [T]) {
    let mut i = 0;
    let mut j = half;
    for k in 0..from.len() {
        if i < half && (j >= from.len() || from[i] <= from[j]) {
            to[k] = from[i].clone();
            i += 1;
        } else {
            to[k] = from[j].clone();
            j += 1;
        }
    }
}
```
-/

/-- The `for k in 0..from.len()` loop of `merge`, producing the sequence of
elements written to `to[0], to[1], ...` (`k` counts remaining iterations). -/
def mergeGo (f : List α) (half : Nat) : Nat → Nat → Nat → List α
  | 0, _, _ => []
  | k + 1, i, j =>
    if i < half ∧ (f.length ≤ j ∨ f.getD i default ≤ f.getD j default) then
      f.getD i default :: mergeGo f half k (i + 1) j
    else
      f.getD j default :: mergeGo f half k i (j + 1)

/-- `merge` from src/src/lib.rs: writes `to[0..from.len())`, leaving the
rest of the destination untouched. -/
def merge (f : List α) (half : Nat) (t : List α) : List α :=
  mergeGo f half f.length 0 half ++ t.drop f.length

theorem sorted_getD_mono {l : List α} (hs : List.Sorted (· ≤ ·) l) {a b : Nat}
    (hab : a ≤ b) (hb : b < l.length) : l.getD a default ≤ l.getD b default := by
  rcases Nat.lt_or_ge a b with h | h
  · rw [getD_eq_getElem_of_lt l a (by omega), getD_eq_getElem_of_lt l b hb]
    exact List.pairwise_iff_getElem.mp hs a b (by omega) hb h
  · have hba : a = b := by omega
    subst hba
    exact le_refl _

theorem mergeGo_spec (f : List α) (half : Nat) (hhalf : half ≤ f.length)
    (hs1 : List.Sorted (· ≤ ·) (f.take half))
    (hs2 : List.Sorted (· ≤ ·) (f.drop half)) :
    ∀ (k i j : Nat), i ≤ half → half ≤ j → j ≤ f.length →
      i + (j - half) + k = f.length →
      List.Sorted (· ≤ ·) (mergeGo f half k i j) ∧
        (∀ x ∈ mergeGo f half k i j,
          (∃ i2, i ≤ i2 ∧ i2 < half ∧ x = f.getD i2 default) ∨
          (∃ j2, j ≤ j2 ∧ j2 < f.length ∧ x = f.getD j2 default)) := by
  -- monotonicity along each run
  have hleft : ∀ a b, a ≤ b → b < half → f.getD a default ≤ f.getD b default := by
    intro a b hab hb
    have := sorted_getD_mono hs1 hab (b := b) (by rw [List.length_take]; omega)
    rwa [getD_take_lt f half a (by omega), getD_take_lt f half b (by omega)] at this
  have hright : ∀ a b, half ≤ a → a ≤ b → b < f.length →
      f.getD a default ≤ f.getD b default := by
    intro a b ha hab hb
    have := sorted_getD_mono hs2 (a := a - half) (b := b - half) (by omega)
      (by rw [List.length_drop]; omega)
    rw [getD_drop, getD_drop] at this
    have e1 : half + (a - half) = a := by omega
    have e2 : half + (b - half) = b := by omega
    rwa [e1, e2] at this
  intro k
  induction k with
  | zero =>
    intro i j h1 h2 h3 h4
    exact ⟨List.sorted_nil, fun x hx => absurd hx (List.not_mem_nil x)⟩
  | succ k ih =>
    intro i j h1 h2 h3 h4
    rw [mergeGo]
    by_cases hc : i < half ∧ (f.length ≤ j ∨ f.getD i default ≤ f.getD j default)
    · rw [if_pos hc]
      obtain ⟨q1, q2⟩ := ih (i + 1) j (by omega) h2 h3 (by omega)
      constructor
      · rw [List.Sorted, List.pairwise_cons]
        refine ⟨?_, q1⟩
        intro x hx
        rcases q2 x hx with ⟨i2, hi1, hi2, rfl⟩ | ⟨j2, hj1, hj2, rfl⟩
        · exact hleft i i2 (by omega) hi2
        · rcases hc.2 with hcl | hcl
          · omega
          · exact le_trans hcl (hright j j2 h2 hj1 hj2)
      · intro x hx
        rcases List.mem_cons.mp hx with rfl | hx2
        · exact Or.inl ⟨i, le_refl _, hc.1, rfl⟩
        · rcases q2 x hx2 with ⟨i2, hi1, hi2, hxe⟩ | hr
          · exact Or.inl ⟨i2, by omega, hi2, hxe⟩
          · exact Or.inr hr
    · rw [if_neg hc]
      have hjlt : j < f.length := by
        by_cases hi : i < half
        · push_neg at hc
          exact (hc hi).1
        · omega
      obtain ⟨q1, q2⟩ := ih i (j + 1) h1 (by omega) (by omega) (by omega)
      constructor
      · rw [List.Sorted, List.pairwise_cons]
        refine ⟨?_, q1⟩
        intro x hx
        rcases q2 x hx with ⟨i2, hi1, hi2, rfl⟩ | ⟨j2, hj1, hj2, rfl⟩
        · push_neg at hc
          have := (hc (by omega)).2
          exact le_trans (le_of_lt this) (hleft i i2 hi1 hi2)
        · exact hright j j2 h2 (by omega) hj2
      · intro x hx
        rcases List.mem_cons.mp hx with rfl | hx2
        · exact Or.inr ⟨j, le_refl _, hjlt, rfl⟩
        · rcases q2 x hx2 with hl | ⟨j2, hj1, hj2, hxe⟩
          · exact Or.inl hl
          · exact Or.inr ⟨j2, by omega, hj2, hxe⟩

theorem mergeGo_perm (f : List α) (half : Nat) (hhalf : half ≤ f.length) :
    ∀ (k i j : Nat), i ≤ half → half ≤ j → j ≤ f.length →
      i + (j - half) + k = f.length →
      (mergeGo f half k i j).Perm ((f.drop i).take (half - i) ++ f.drop j) := by
  intro k
  induction k with
  | zero =>
    intro i j h1 h2 h3 h4
    have hi : i = half := by omega
    have hj : j = f.length := by omega
    subst hi; subst hj
    simp [mergeGo]
  | succ k ih =>
    intro i j h1 h2 h3 h4
    rw [mergeGo]
    by_cases hc : i < half ∧ (f.length ≤ j ∨ f.getD i default ≤ f.getD j default)
    · rw [if_pos hc]
      have hperm := ih (i + 1) j (by omega) h2 h3 (by omega)
      have hileft : i < f.length := by omega
      have hhead : (f.drop i).take (half - i) =
          f.getD i default :: (f.drop (i + 1)).take (half - (i + 1)) := by
        rw [List.drop_eq_getElem_cons hileft, getD_eq_getElem_of_lt f i hileft]
        have he : half - i = (half - (i + 1)) + 1 := by omega
        rw [he, List.take_succ_cons]
      rw [hhead, List.cons_append]
      exact hperm.cons _
    · rw [if_neg hc]
      have hjlt : j < f.length := by
        by_cases hi : i < half
        · push_neg at hc
          exact (hc hi).1
        · omega
      have hperm := ih i (j + 1) h1 (by omega) (by omega) (by omega)
      have hdropj : f.drop j = f.getD j default :: f.drop (j + 1) := by
        rw [List.drop_eq_getElem_cons hjlt, getD_eq_getElem_of_lt f j hjlt]
      rw [hdropj]
      exact (hperm.cons _).trans List.perm_middle.symm

theorem mergeGo_length (f : List α) (half : Nat) :
    ∀ (k i j : Nat), (mergeGo f half k i j).length = k := by
  intro k
  induction k with
  | zero => intro i j; rfl
  | succ k ih =>
    intro i j
    rw [mergeGo]
    by_cases hc : i < half ∧ (f.length ≤ j ∨ f.getD i default ≤ f.getD j default)
    · rw [if_pos hc, List.length_cons, ih]
    · rw [if_neg hc, List.length_cons, ih]

theorem merge_sorted (f t : List α) (half : Nat) (hhalf : half ≤ f.length)
    (hlen : t.length = f.length)
    (hs1 : List.Sorted (· ≤ ·) (f.take half))
    (hs2 : List.Sorted (· ≤ ·) (f.drop half)) :
    List.Sorted (· ≤ ·) (merge f half t) := by
  unfold merge
  have hdrop : t.drop f.length = [] := by
    rw [← hlen]
    exact List.drop_length t
  rw [hdrop, List.append_nil]
  exact (mergeGo_spec f half hhalf hs1 hs2 f.length 0 half (by omega) (le_refl _)
    hhalf (by omega)).1

theorem merge_perm (f t : List α) (half : Nat) (hhalf : half ≤ f.length)
    (hlen : t.length = f.length) : (merge f half t).Perm f := by
  unfold merge
  have hdrop : t.drop f.length = [] := by
    rw [← hlen]
    exact List.drop_length t
  rw [hdrop, List.append_nil]
  have := mergeGo_perm f half hhalf f.length 0 half (by omega) (le_refl _) hhalf (by omega)
  simpa using this

example : merge ([1, 3, 2, 4] : List Int) 2 [0, 0, 0, 0] = [1, 2, 3, 4] := by decide
example : merge ([2, 9, 2, 5] : List Int) 2 [0, 0, 0, 0] = [2, 2, 5, 9] := by decide

/-! ## Merge sort, top-down (src/src/lib.rs, lines 249-262)

```rust
pub fn merge_sort_top_down<T: Ord + Clone>(v: &mut [T]) {
    fn split_merge<T: Ord + Clone>(w: &mut [T], v: &mut [T]) {
        if w.len() > 1 {
            let half = w.len() / 2;
            split_merge(&mut v[..half], &mut w[..half]);
            split_merge(&mut v[half..], &mut w[half..]);
            merge(w, half, v);
        }
    }
    let mut w: Vec<_> = v.iter().cloned().collect();
    split_merge(&mut w, v);
}
```

`splitMergeGo fuel w v` returns the final contents `(w', v')` of the two
buffers; the recursion depth is bounded by the length, so fuel
`v.length` is ample. -/
def splitMergeGo : Nat → List α → List α → List α × List α
  | 0, w, v => (w, v)
  | fuel + 1, w, v =>
    if 1 < w.length then
      ((splitMergeGo fuel (v.take (w.length / 2)) (w.take (w.length / 2))).2 ++
          (splitMergeGo fuel (v.drop (w.length / 2)) (w.drop (w.length / 2))).2,
        merge
          ((splitMergeGo fuel (v.take (w.length / 2)) (w.take (w.length / 2))).2 ++
            (splitMergeGo fuel (v.drop (w.length / 2)) (w.drop (w.length / 2))).2)
          (w.length / 2)
          ((splitMergeGo fuel (v.take (w.length / 2)) (w.take (w.length / 2))).1 ++
            (splitMergeGo fuel (v.drop (w.length / 2)) (w.drop (w.length / 2))).1))
    else (w, v)

/-- `merge_sort_top_down` from src/src/lib.rs (the scratch buffer `w` is a
clone of `v`). -/
def merge_sort_top_down (v : List α) : List α := (splitMergeGo v.length v v).2

theorem splitMergeGo_spec : ∀ (fuel : Nat) (v : List α), v.length ≤ fuel →
    List.Sorted (· ≤ ·) ((splitMergeGo fuel v v).2) ∧
      ((splitMergeGo fuel v v).2).Perm v ∧
      ((splitMergeGo fuel v v).1).length = v.length ∧
      ((splitMergeGo fuel v v).2).length = v.length := by
  intro fuel
  induction fuel with
  | zero =>
    intro v hf
    have : v.length = 0 := by omega
    rw [splitMergeGo]
    dsimp only
    exact ⟨sorted_of_length_le_one (by omega), List.Perm.refl v, rfl, rfl⟩
  | succ fuel ih =>
    intro v hf
    rw [splitMergeGo]
    by_cases hlen : 1 < v.length
    · rw [if_pos hlen]
      have hh1 : (v.take (v.length / 2)).length = v.length / 2 := by
        rw [List.length_take]; omega
      have hh2 : (v.drop (v.length / 2)).length = v.length - v.length / 2 := by
        rw [List.length_drop]
      obtain ⟨a1, a2, a3, a4⟩ := ih (v.take (v.length / 2)) (by rw [hh1]; omega)
      obtain ⟨b1, b2, b3, b4⟩ := ih (v.drop (v.length / 2)) (by rw [hh2]; omega)
      dsimp only
      set r1 := splitMergeGo fuel (v.take (v.length / 2)) (v.take (v.length / 2)) with hr1
      set r2 := splitMergeGo fuel (v.drop (v.length / 2)) (v.drop (v.length / 2)) with hr2
      have hsrc_len : (r1.2 ++ r2.2).length = v.length := by
        rw [List.length_append, a4, b4, hh1, hh2]; omega
      have hdst_len : (r1.1 ++ r2.1).length = v.length := by
        rw [List.length_append, a3, b3, hh1, hh2]; omega
      have hsrc_take : (r1.2 ++ r2.2).take (v.length / 2) = r1.2 :=
        List.take_left' (by rw [a4, hh1])
      have hsrc_drop : (r1.2 ++ r2.2).drop (v.length / 2) = r2.2 :=
        List.drop_left' (by rw [a4, hh1])
      have hhalf_le : v.length / 2 ≤ (r1.2 ++ r2.2).length := by
        rw [hsrc_len]; omega
      refine ⟨?_, ?_, ?_, ?_⟩
      · apply merge_sorted _ _ _ hhalf_le (by rw [hdst_len, hsrc_len])
        · rw [hsrc_take]; exact a1
        · rw [hsrc_drop]; exact b1
      · have hperm := merge_perm (r1.2 ++ r2.2) (r1.1 ++ r2.1) (v.length / 2)
          hhalf_le (by rw [hdst_len, hsrc_len])
        refine hperm.trans ?_
        refine (List.Perm.append a2 b2).trans ?_
        rw [List.take_append_drop]
      · exact hsrc_len
      · have hperm := merge_perm (r1.2 ++ r2.2) (r1.1 ++ r2.1) (v.length / 2)
          hhalf_le (by rw [hdst_len, hsrc_len])
        rw [hperm.length_eq, hsrc_len]
    · rw [if_neg hlen]
      dsimp only
      exact ⟨sorted_of_length_le_one (by omega), List.Perm.refl v, rfl, rfl⟩

theorem merge_sort_top_down_sorted (v : List α) :
    List.Sorted (· ≤ ·) (merge_sort_top_down v) :=
  (splitMergeGo_spec v.length v (le_refl _)).1

theorem merge_sort_top_down_perm (v : List α) : (merge_sort_top_down v).Perm v :=
  (splitMergeGo_spec v.length v (le_refl _)).2.1

example : merge_sort_top_down ([5, 3, 1, 4, 2] : List Int) = [1, 2, 3, 4, 5] := by decide
example : merge_sort_top_down ([] : List Int) = [] := by decide
example : merge_sort_top_down ([2, 1] : List Int) = [1, 2] := by decide
example : merge_sort_top_down ([9, 8, 7, 6, 5, 4, 3, 2, 1] : List Int) =
    [1, 2, 3, 4, 5, 6, 7, 8, 9] := by decide

/-! ## Quicksort, binary (src/src/lib.rs, lines 153-194)

```rust
pub fn quick_sort<T: Ord>(mut v: &mut [T]) {
    fn choose_pivot<T: Ord>(v: &[T]) -> usize {
        fastrand::usize(..v.len())
    }
    fn partition<T: Ord>(v: &mut [T]) -> usize {
        let mut i = 1;
        let mut j = 1;
        while j < v.len() {
            if v[j] < v[0] {
                v.swap(i, j);
                i += 1;
            }
            j += 1;
        }
        v.swap(i - 1, 0);
        i - 1
    }
    while v.len() > 30 {
        let pivot = choose_pivot(v);
        v.swap(pivot, 0);
        let mid = partition(v);
        let n = v.len();
        if mid < n - mid {
            quick_sort(&mut v[..mid]);
            if mid < n { v = &mut v[mid + 1..]; } else { break; }
        } else {
            if mid < n { quick_sort(&mut v[mid + 1..]); }
            v = &mut v[..mid];
        }
    }
    insertion_sort(v);
}
```

Modelled from the spec: `fastrand::usize(..n)` (the `fastrand` crate is
external to the repository) provides "a uniformly distributed index in
`[0, n)`" from a process-wide generator.  It is modelled as an injected
stream `g : Nat → Nat`; a call with bound `n` yields `g 0 % n` (so every
sequence of in-range pivot indices is realised by some stream) and the
stream advances to `fun k => g (k + 1)`.  The branches `if mid < n` are
kept from the source even though `mid < n` always holds (`mid ≤ n - 1`);
the `else` arms are unreachable. -/
def qpartGo : Nat → Nat → Nat → List α → List α × Nat
  | 0, i, _, v => (v, i)
  | k + 1, i, j, v =>
    if j < v.length then
      if v.getD j default < v.getD 0 default then
        qpartGo k (i + 1) (j + 1) (lswap v i j)
      else
        qpartGo k i (j + 1) v
    else (v, i)

/-- `partition` of `quick_sort`: the final list and `mid = i - 1`. -/
def qpartition (v : List α) : List α × Nat :=
  (lswap (qpartGo v.length 1 1 v).1 ((qpartGo v.length 1 1 v).2 - 1) 0,
   (qpartGo v.length 1 1 v).2 - 1)

theorem qpartGo_spec :
    ∀ (k i j : Nat) (v : List α), 1 ≤ i → i ≤ j → v.length ≤ k + j →
      (∀ t, 1 ≤ t → t < i → v.getD t default < v.getD 0 default) →
      (∀ t, i ≤ t → t < j → ¬ v.getD t default < v.getD 0 default) →
      (qpartGo k i j v).1.Perm v ∧ (qpartGo k i j v).1.length = v.length ∧
        1 ≤ (qpartGo k i j v).2 ∧ (qpartGo k i j v).2 ≤ max j v.length ∧
        (qpartGo k i j v).1.getD 0 default = v.getD 0 default ∧
        (∀ t, 1 ≤ t → t < (qpartGo k i j v).2 →
          (qpartGo k i j v).1.getD t default < (qpartGo k i j v).1.getD 0 default) ∧
        (∀ t, (qpartGo k i j v).2 ≤ t → t < v.length →
          ¬ (qpartGo k i j v).1.getD t default < (qpartGo k i j v).1.getD 0 default) := by
  intro k
  induction k with
  | zero =>
    intro i j v h1 h2 h3 hlt hge
    rw [qpartGo]
    refine ⟨List.Perm.refl v, rfl, h1, by omega, rfl, hlt, ?_⟩
    intro t ht1 ht2
    exact hge t ht1 (by omega)
  | succ k ih =>
    intro i j v h1 h2 h3 hlt hge
    rw [qpartGo]
    by_cases hj : j < v.length
    · rw [if_pos hj]
      by_cases hc : v.getD j default < v.getD 0 default
      · rw [if_pos hc]
        have hi : i < v.length := by omega
        have hgsw := getD_lswap_fn v i j hi hj
        have h0 : (lswap v i j).getD 0 default = v.getD 0 default := by
          rw [hgsw 0, if_neg (by omega), if_neg (by omega)]
        have hres := ih (i + 1) (j + 1) (lswap v i j) (by omega) (by omega)
          (by rw [length_lswap]; omega)
          (by
            intro t ht1 ht2
            rw [h0, hgsw t]
            by_cases htj : t = j
            · rw [if_pos htj]
              have hij : i = j := by omega
              rw [hij]
              exact hc
            · rw [if_neg htj]
              by_cases hti : t = i
              · rw [if_pos hti]
                exact hc
              · rw [if_neg hti]
                exact hlt t ht1 (by omega))
          (by
            intro t ht1 ht2
            rw [h0, hgsw t]
            by_cases htj : t = j
            · rw [if_pos htj]
              by_cases hij : i = j
              · rw [← hij] at htj
                omega
              · exact hge i (le_refl i) (by omega)
            · rw [if_neg htj, if_neg (by omega)]
              exact hge t (by omega) (by omega))
        obtain ⟨p1, p2, p3, p4, p5, p6, p7⟩ := hres
        rw [length_lswap] at p2 p4 p7
        refine ⟨p1.trans (lswap_perm v i j hi hj), p2, p3, by omega, ?_, p6, p7⟩
        rw [p5, h0]
      · rw [if_neg hc]
        have hres := ih i (j + 1) v h1 (by omega) (by omega) hlt
          (by
            intro t ht1 ht2
            by_cases htj : t = j
            · rw [htj]
              exact hc
            · exact hge t ht1 (by omega))
        obtain ⟨p1, p2, p3, p4, p5, p6, p7⟩ := hres
        exact ⟨p1, p2, p3, by omega, p5, p6, p7⟩
    · rw [if_neg hj]
      refine ⟨List.Perm.refl v, rfl, h1, by omega, rfl, hlt, ?_⟩
      intro t ht1 ht2
      exact hge t ht1 (by omega)

theorem qpartition_spec (v : List α) (hv : 1 ≤ v.length) :
    (qpartition v).1.Perm v ∧ (qpartition v).1.length = v.length ∧
      (qpartition v).2 < v.length ∧
      (∀ x ∈ (qpartition v).1.take (qpartition v).2,
        x < (qpartition v).1.getD (qpartition v).2 default) ∧
      (∀ x ∈ (qpartition v).1.drop ((qpartition v).2 + 1),
        (qpartition v).1.getD (qpartition v).2 default ≤ x) := by
  obtain ⟨p1, p2, p3, p4, p5, p6, p7⟩ := qpartGo_spec v.length 1 1 v (le_refl _)
    (le_refl _) (by omega) (by intro t ht1 ht2; omega) (by intro t ht1 ht2; omega)
  have hmax : max 1 v.length = v.length := by omega
  rw [hmax] at p4
  set w := (qpartGo v.length 1 1 v).1 with hw
  set i := (qpartGo v.length 1 1 v).2 with hi
  have hmid_lt : i - 1 < v.length := by omega
  have hi1_lt : i - 1 < w.length := by omega
  have h0_lt : 0 < w.length := by omega
  have hgsw := getD_lswap_fn w (i - 1) 0 hi1_lt h0_lt
  have hq1 : (qpartition v).1 = lswap w (i - 1) 0 := rfl
  have hq2 : (qpartition v).2 = i - 1 := rfl
  rw [hq1, hq2]
  have hpivot : (lswap w (i - 1) 0).getD (i - 1) default = v.getD 0 default := by
    by_cases he : i - 1 = 0
    · rw [hgsw (i - 1), if_pos he, he]
      exact p5
    · rw [hgsw (i - 1), if_neg he, if_pos rfl]
      exact p5
  refine ⟨(lswap_perm w (i - 1) 0 hi1_lt h0_lt).trans p1, by rw [length_lswap]; omega,
    by omega, ?_, ?_⟩
  · intro x hx
    rcases List.mem_iff_getElem.mp hx with ⟨t, ht, rfl⟩
    have htb : t < i - 1 := by
      rw [List.length_take] at ht
      omega
    have htlt : t < (lswap w (i - 1) 0).length := by
      rw [length_lswap]
      omega
    rw [List.getElem_take, ← getD_eq_getElem_of_lt _ t htlt, hpivot]
    by_cases ht0 : t = 0
    · rw [ht0, hgsw 0, if_pos rfl]
      have := p6 (i - 1) (by omega) (by omega)
      rw [p5] at this
      exact this
    · rw [hgsw t, if_neg ht0, if_neg (by omega)]
      have := p6 t (by omega) (by omega)
      rw [p5] at this
      exact this
  · intro x hx
    rcases List.mem_iff_getElem.mp hx with ⟨t, ht, rfl⟩
    have htlen : i - 1 + 1 + t < v.length := by
      rw [List.length_drop, length_lswap] at ht
      omega
    have htlt : i - 1 + 1 + t < (lswap w (i - 1) 0).length := by
      rw [length_lswap]
      omega
    rw [List.getElem_drop, ← getD_eq_getElem_of_lt _ (i - 1 + 1 + t) htlt, hpivot]
    rw [hgsw (i - 1 + 1 + t), if_neg (by omega), if_neg (by omega)]
    have := p7 (i - 1 + 1 + t) (by omega) (by omega)
    rw [p5] at this
    exact le_of_not_lt this

example : qpartition ([3, 5, 1, 4, 2] : List Int) = ([2, 1, 3, 4, 5], 2) := by decide

/-- The `while v.len() > 30` loop of `quick_sort`, as recursion: the
reassignments `v = &mut v[..mid]` / `v = &mut v[mid + 1..]` are the tail
calls.  Returns the sorted list and the advanced generator stream. -/
def quickSortGo : Nat → (Nat → Nat) → List α → List α × (Nat → Nat)
  | 0, g, v => (v, g)
  | fuel + 1, g, v =>
    if 30 < v.length then
      if (qpartition (lswap v (g 0 % v.length) 0)).2 <
          (qpartition (lswap v (g 0 % v.length) 0)).1.length -
            (qpartition (lswap v (g 0 % v.length) 0)).2 then
        if (qpartition (lswap v (g 0 % v.length) 0)).2 <
            (qpartition (lswap v (g 0 % v.length) 0)).1.length then
          ((quickSortGo fuel (fun k => g (k + 1))
              ((qpartition (lswap v (g 0 % v.length) 0)).1.take
                (qpartition (lswap v (g 0 % v.length) 0)).2)).1 ++
            (qpartition (lswap v (g 0 % v.length) 0)).1.getD
              (qpartition (lswap v (g 0 % v.length) 0)).2 default ::
            (quickSortGo fuel
              (quickSortGo fuel (fun k => g (k + 1))
                ((qpartition (lswap v (g 0 % v.length) 0)).1.take
                  (qpartition (lswap v (g 0 % v.length) 0)).2)).2
              ((qpartition (lswap v (g 0 % v.length) 0)).1.drop
                ((qpartition (lswap v (g 0 % v.length) 0)).2 + 1))).1,
           (quickSortGo fuel
              (quickSortGo fuel (fun k => g (k + 1))
                ((qpartition (lswap v (g 0 % v.length) 0)).1.take
                  (qpartition (lswap v (g 0 % v.length) 0)).2)).2
              ((qpartition (lswap v (g 0 % v.length) 0)).1.drop
                ((qpartition (lswap v (g 0 % v.length) 0)).2 + 1))).2)
        else
          -- unreachable (`mid < n` always holds): `break`, then
          -- `insertion_sort` of the current full slice
          (insertion_sort
            ((quickSortGo fuel (fun k => g (k + 1))
                ((qpartition (lswap v (g 0 % v.length) 0)).1.take
                  (qpartition (lswap v (g 0 % v.length) 0)).2)).1 ++
              (qpartition (lswap v (g 0 % v.length) 0)).1.drop
                (qpartition (lswap v (g 0 % v.length) 0)).2),
           (quickSortGo fuel (fun k => g (k + 1))
              ((qpartition (lswap v (g 0 % v.length) 0)).1.take
                (qpartition (lswap v (g 0 % v.length) 0)).2)).2)
      else
        if (qpartition (lswap v (g 0 % v.length) 0)).2 <
            (qpartition (lswap v (g 0 % v.length) 0)).1.length then
          ((quickSortGo fuel
              (quickSortGo fuel (fun k => g (k + 1))
                ((qpartition (lswap v (g 0 % v.length) 0)).1.drop
                  ((qpartition (lswap v (g 0 % v.length) 0)).2 + 1))).2
              ((qpartition (lswap v (g 0 % v.length) 0)).1.take
                (qpartition (lswap v (g 0 % v.length) 0)).2)).1 ++
            (qpartition (lswap v (g 0 % v.length) 0)).1.getD
              (qpartition (lswap v (g 0 % v.length) 0)).2 default ::
            (quickSortGo fuel (fun k => g (k + 1))
              ((qpartition (lswap v (g 0 % v.length) 0)).1.drop
                ((qpartition (lswap v (g 0 % v.length) 0)).2 + 1))).1,
           (quickSortGo fuel
              (quickSortGo fuel (fun k => g (k + 1))
                ((qpartition (lswap v (g 0 % v.length) 0)).1.drop
                  ((qpartition (lswap v (g 0 % v.length) 0)).2 + 1))).2
              ((qpartition (lswap v (g 0 % v.length) 0)).1.take
                (qpartition (lswap v (g 0 % v.length) 0)).2)).2)
        else
          -- unreachable: no recursion on the right, continue on `v[..mid]`
          ((quickSortGo fuel (fun k => g (k + 1))
              ((qpartition (lswap v (g 0 % v.length) 0)).1.take
                (qpartition (lswap v (g 0 % v.length) 0)).2)).1 ++
            (qpartition (lswap v (g 0 % v.length) 0)).1.drop
              (qpartition (lswap v (g 0 % v.length) 0)).2,
           (quickSortGo fuel (fun k => g (k + 1))
              ((qpartition (lswap v (g 0 % v.length) 0)).1.take
                (qpartition (lswap v (g 0 % v.length) 0)).2)).2)
    else (insertion_sort v, g)

/-- `quick_sort` from src/src/lib.rs, with the random generator as an
injected stream (ample fuel: each recursive call strictly shrinks the
range). -/
def quick_sort (g : Nat → Nat) (v : List α) : List α × (Nat → Nat) :=
  quickSortGo (v.length + 1) g v

theorem quickSortGo_spec :
    ∀ (fuel : Nat) (g : Nat → Nat) (v : List α), v.length < fuel →
      List.Sorted (· ≤ ·) ((quickSortGo fuel g v).1) ∧ ((quickSortGo fuel g v).1).Perm v := by
  intro fuel
  induction fuel with
  | zero => intro g v h; omega
  | succ fuel ih =>
    intro g v hf
    rw [quickSortGo]
    by_cases h30 : 30 < v.length
    · rw [if_pos h30]
      have hpv : g 0 % v.length < v.length := Nat.mod_lt _ (by omega)
      have hswlen : (lswap v (g 0 % v.length) 0).length = v.length := length_lswap _ _ _
      have hswperm : (lswap v (g 0 % v.length) 0).Perm v :=
        lswap_perm v _ 0 hpv (by omega)
      obtain ⟨q1, q2, q3, q4, q5⟩ :=
        qpartition_spec (lswap v (g 0 % v.length) 0) (by omega)
      have hplen : (qpartition (lswap v (g 0 % v.length) 0)).1.length = v.length := by
        rw [q2, hswlen]
      have hmid : (qpartition (lswap v (g 0 % v.length) 0)).2 < v.length := by
        rw [hswlen] at q3
        exact q3
      have hpperm : (qpartition (lswap v (g 0 % v.length) 0)).1.Perm v := q1.trans hswperm
      have htklen : ((qpartition (lswap v (g 0 % v.length) 0)).1.take
          (qpartition (lswap v (g 0 % v.length) 0)).2).length =
          (qpartition (lswap v (g 0 % v.length) 0)).2 := by
        rw [List.length_take]
        omega
      have hdplen : ((qpartition (lswap v (g 0 % v.length) 0)).1.drop
          ((qpartition (lswap v (g 0 % v.length) 0)).2 + 1)).length =
          v.length - ((qpartition (lswap v (g 0 % v.length) 0)).2 + 1) := by
        rw [List.length_drop, hplen]
      have hdecomp : (qpartition (lswap v (g 0 % v.length) 0)).1.take
            (qpartition (lswap v (g 0 % v.length) 0)).2 ++
          (qpartition (lswap v (g 0 % v.length) 0)).1.getD
            (qpartition (lswap v (g 0 % v.length) 0)).2 default ::
          (qpartition (lswap v (g 0 % v.length) 0)).1.drop
            ((qpartition (lswap v (g 0 % v.length) 0)).2 + 1) =
          (qpartition (lswap v (g 0 % v.length) 0)).1 := by
        rw [getD_eq_getElem_of_lt _ _ (by rw [hplen]; exact hmid),
          List.getElem_cons_drop _ _ (by rw [hplen]; exact hmid), List.take_append_drop]
      -- the two recursive sorts, for an arbitrary generator
      have hrec_left : ∀ g2 : Nat → Nat,
          List.Sorted (· ≤ ·) ((quickSortGo fuel g2
            ((qpartition (lswap v (g 0 % v.length) 0)).1.take
              (qpartition (lswap v (g 0 % v.length) 0)).2)).1) ∧
          ((quickSortGo fuel g2
            ((qpartition (lswap v (g 0 % v.length) 0)).1.take
              (qpartition (lswap v (g 0 % v.length) 0)).2)).1).Perm
            ((qpartition (lswap v (g 0 % v.length) 0)).1.take
              (qpartition (lswap v (g 0 % v.length) 0)).2) := by
        intro g2
        exact ih g2 _ (by rw [htklen]; omega)
      have hrec_right : ∀ g2 : Nat → Nat,
          List.Sorted (· ≤ ·) ((quickSortGo fuel g2
            ((qpartition (lswap v (g 0 % v.length) 0)).1.drop
              ((qpartition (lswap v (g 0 % v.length) 0)).2 + 1))).1) ∧
          ((quickSortGo fuel g2
            ((qpartition (lswap v (g 0 % v.length) 0)).1.drop
              ((qpartition (lswap v (g 0 % v.length) 0)).2 + 1))).1).Perm
            ((qpartition (lswap v (g 0 % v.length) 0)).1.drop
              ((qpartition (lswap v (g 0 % v.length) 0)).2 + 1)) := by
        intro g2
        exact ih g2 _ (by rw [hdplen]; omega)
      -- the assembled list is sorted and a permutation, whichever branch ran
      have hassemble : ∀ g2 g3 : Nat → Nat,
          List.Sorted (· ≤ ·)
            ((quickSortGo fuel g2
              ((qpartition (lswap v (g 0 % v.length) 0)).1.take
                (qpartition (lswap v (g 0 % v.length) 0)).2)).1 ++
              (qpartition (lswap v (g 0 % v.length) 0)).1.getD
                (qpartition (lswap v (g 0 % v.length) 0)).2 default ::
              (quickSortGo fuel g3
                ((qpartition (lswap v (g 0 % v.length) 0)).1.drop
                  ((qpartition (lswap v (g 0 % v.length) 0)).2 + 1))).1) ∧
          ((quickSortGo fuel g2
              ((qpartition (lswap v (g 0 % v.length) 0)).1.take
                (qpartition (lswap v (g 0 % v.length) 0)).2)).1 ++
            (qpartition (lswap v (g 0 % v.length) 0)).1.getD
              (qpartition (lswap v (g 0 % v.length) 0)).2 default ::
            (quickSortGo fuel g3
              ((qpartition (lswap v (g 0 % v.length) 0)).1.drop
                ((qpartition (lswap v (g 0 % v.length) 0)).2 + 1))).1).Perm v := by
        intro g2 g3
        obtain ⟨sl, pl⟩ := hrec_left g2
        obtain ⟨sr, pr⟩ := hrec_right g3
        constructor
        · rw [List.Sorted, List.pairwise_append]
          refine ⟨sl, ?_, ?_⟩
          · rw [List.pairwise_cons]
            refine ⟨?_, sr⟩
            intro x hx
            exact q5 x (pr.mem_iff.mp hx)
          · intro x hx b hb
            have hxlt := q4 x (pl.mem_iff.mp hx)
            rcases List.mem_cons.mp hb with rfl | hb2
            · exact le_of_lt hxlt
            · exact le_trans (le_of_lt hxlt) (q5 b (pr.mem_iff.mp hb2))
        · refine ((pl.append (pr.cons _)).trans ?_)
          rw [hdecomp]
          exact hpperm
      by_cases hbr : (qpartition (lswap v (g 0 % v.length) 0)).2 <
          (qpartition (lswap v (g 0 % v.length) 0)).1.length -
            (qpartition (lswap v (g 0 % v.length) 0)).2
      · rw [if_pos hbr, if_pos (by rw [hplen]; exact hmid)]
        exact hassemble _ _
      · rw [if_neg hbr, if_pos (by rw [hplen]; exact hmid)]
        exact hassemble _ _
    · rw [if_neg h30]
      exact ⟨insertion_sort_sorted v, insertion_sort_perm v⟩

theorem quick_sort_spec (g : Nat → Nat) (v : List α) :
    List.Sorted (· ≤ ·) ((quick_sort g v).1) ∧ ((quick_sort g v).1).Perm v :=
  quickSortGo_spec (v.length + 1) g v (by omega)

/-! ## Quicksort, 3-way (src/src/lib.rs, lines 109-149)

```rust
pub fn quick_sort_3<T: Ord>(mut v: &mut [T]) {
    fn choose_pivot<T: Ord>(v: &[T]) -> usize {
        fastrand::usize(..v.len())
    }
    fn partition<T: Ord>(v: &mut [T]) -> (usize, usize) {
        let mut mid1 = 1;
        let mut mid2 = 1;
        let mut j = 1;
        while j < v.len() {
            if v[j] < v[0] {
                v.swap(mid2, j);
                v.swap(mid2, mid1);
                mid1 += 1;
                mid2 += 1;
            } else if v[j] == v[0] {
                v.swap(mid2, j);
                mid2 += 1;
            }
            j += 1;
        }
        v.swap(mid1 - 1, 0);
        (mid1 - 1, mid2)
    }
    while v.len() > 30 {
        let pivot = choose_pivot(v);
        v.swap(pivot, 0);
        let (mid1, mid2) = partition(v);
        if mid1 < v.len() - mid2 {
            quick_sort_3(&mut v[..mid1]);
            v = &mut v[mid2..];
        } else {
            quick_sort_3(&mut v[mid2..]);
            v = &mut v[..mid1];
        }
    }
    insertion_sort(v);
}
```
-/

def qpart3Go : Nat → Nat → Nat → Nat → List α → List α × Nat × Nat
  | 0, m1, m2, _, v => (v, m1, m2)
  | k + 1, m1, m2, j, v =>
    if j < v.length then
      if v.getD j default < v.getD 0 default then
        qpart3Go k (m1 + 1) (m2 + 1) (j + 1) (lswap (lswap v m2 j) m2 m1)
      else if v.getD j default = v.getD 0 default then
        qpart3Go k m1 (m2 + 1) (j + 1) (lswap v m2 j)
      else
        qpart3Go k m1 m2 (j + 1) v
    else (v, m1, m2)

/-- `partition` of `quick_sort_3`: the final list and `(mid1 - 1, mid2)`. -/
def qpartition3 (v : List α) : List α × Nat × Nat :=
  (lswap (qpart3Go v.length 1 1 1 v).1 ((qpart3Go v.length 1 1 1 v).2.1 - 1) 0,
   (qpart3Go v.length 1 1 1 v).2.1 - 1,
   (qpart3Go v.length 1 1 1 v).2.2)

theorem qpart3Go_spec :
    ∀ (k m1 m2 j : Nat) (v : List α), 1 ≤ m1 → m1 ≤ m2 → m2 ≤ j → v.length ≤ k + j →
      (∀ t, 1 ≤ t → t < m1 → v.getD t default < v.getD 0 default) →
      (∀ t, m1 ≤ t → t < m2 → v.getD t default = v.getD 0 default) →
      (∀ t, m2 ≤ t → t < j → v.getD 0 default < v.getD t default) →
      (qpart3Go k m1 m2 j v).1.Perm v ∧ (qpart3Go k m1 m2 j v).1.length = v.length ∧
        (qpart3Go k m1 m2 j v).1.getD 0 default = v.getD 0 default ∧
        m1 ≤ (qpart3Go k m1 m2 j v).2.1 ∧
        (qpart3Go k m1 m2 j v).2.1 ≤ (qpart3Go k m1 m2 j v).2.2 ∧
        (qpart3Go k m1 m2 j v).2.2 ≤ max j v.length ∧
        (∀ t, 1 ≤ t → t < (qpart3Go k m1 m2 j v).2.1 →
          (qpart3Go k m1 m2 j v).1.getD t default <
            (qpart3Go k m1 m2 j v).1.getD 0 default) ∧
        (∀ t, (qpart3Go k m1 m2 j v).2.1 ≤ t → t < (qpart3Go k m1 m2 j v).2.2 →
          (qpart3Go k m1 m2 j v).1.getD t default =
            (qpart3Go k m1 m2 j v).1.getD 0 default) ∧
        (∀ t, (qpart3Go k m1 m2 j v).2.2 ≤ t → t < v.length →
          (qpart3Go k m1 m2 j v).1.getD 0 default <
            (qpart3Go k m1 m2 j v).1.getD t default) := by
  intro k
  induction k with
  | zero =>
    intro m1 m2 j v h1 h2 h3 h4 hR1 hR2 hR3
    rw [qpart3Go]
    dsimp only
    refine ⟨List.Perm.refl v, rfl, rfl, le_refl _, h2, by omega, hR1, hR2, ?_⟩
    intro t ht1 ht2
    exact hR3 t ht1 (by omega)
  | succ k ih =>
    intro m1 m2 j v h1 h2 h3 h4 hR1 hR2 hR3
    rw [qpart3Go]
    by_cases hj : j < v.length
    · rw [if_pos hj]
      have hm2 : m2 < v.length := by omega
      have hm1 : m1 < v.length := by omega
      by_cases hlt : v.getD j default < v.getD 0 default
      · rw [if_pos hlt]
        -- w = lswap (lswap v m2 j) m2 m1
        have hulen : (lswap v m2 j).length = v.length := length_lswap _ _ _
        have hgu := getD_lswap_fn v m2 j hm2 hj
        have hgw := getD_lswap_fn (lswap v m2 j) m2 m1 (by omega) (by omega)
        have hwlen : (lswap (lswap v m2 j) m2 m1).length = v.length := by
          rw [length_lswap, hulen]
        have hum2 : (lswap v m2 j).getD m2 default = v.getD j default := by
          rw [hgu m2]
          by_cases he : m2 = j
          · rw [if_pos he, he]
          · rw [if_neg he, if_pos rfl]
        have hw_at : ∀ t, (lswap (lswap v m2 j) m2 m1).getD t default =
            if t = m1 then v.getD j default
            else if t = m2 then (lswap v m2 j).getD m1 default
            else if t = j then v.getD m2 default
            else v.getD t default := by
          intro t
          rw [hgw t]
          by_cases ht1 : t = m1
          · rw [if_pos ht1, if_pos ht1, hum2]
          · rw [if_neg ht1, if_neg ht1]
            by_cases ht2 : t = m2
            · rw [if_pos ht2, if_pos ht2]
            · rw [if_neg ht2, if_neg ht2, hgu t, if_neg ht2]
        have hw0 : (lswap (lswap v m2 j) m2 m1).getD 0 default = v.getD 0 default := by
          rw [hw_at 0, if_neg (by omega), if_neg (by omega), if_neg (by omega)]
        have hres := ih (m1 + 1) (m2 + 1) (j + 1) (lswap (lswap v m2 j) m2 m1)
          (by omega) (by omega) (by omega) (by rw [hwlen]; omega)
          (by
            intro t ht1 ht2
            rw [hw0, hw_at t]
            by_cases he : t = m1
            · rw [if_pos he]
              exact hlt
            · rw [if_neg he, if_neg (by omega), if_neg (by omega)]
              exact hR1 t ht1 (by omega))
          (by
            intro t ht1 ht2
            rw [hw0, hw_at t]
            rw [if_neg (by omega)]
            by_cases he : t = m2
            · rw [if_pos he]
              rw [hgu m1]
              have hm1j : m1 ≠ j := by omega
              have hm1m2 : m1 ≠ m2 := by omega
              rw [if_neg hm1j, if_neg hm1m2]
              exact hR2 m1 (le_refl _) (by omega)
            · rw [if_neg he, if_neg (by omega)]
              exact hR2 t (by omega) (by omega))
          (by
            intro t ht1 ht2
            rw [hw0, hw_at t]
            rw [if_neg (by omega), if_neg (by omega)]
            by_cases he : t = j
            · rw [if_pos he]
              exact hR3 m2 (le_refl _) (by omega)
            · rw [if_neg he]
              exact hR3 t (by omega) (by omega))
        obtain ⟨p1, p2, p3, p4, p5, p6, p7, p8, p9⟩ := hres
        rw [hwlen] at p2 p6 p9
        have hperm2 : (lswap (lswap v m2 j) m2 m1).Perm v :=
          (lswap_perm _ m2 m1 (by omega) (by omega)).trans (lswap_perm v m2 j hm2 hj)
        exact ⟨p1.trans hperm2, p2, by rw [p3, hw0], by omega, p5, by omega,
          p7, p8, p9⟩
      · rw [if_neg hlt]
        by_cases heq : v.getD j default = v.getD 0 default
        · rw [if_pos heq]
          have hgu := getD_lswap_fn v m2 j hm2 hj
          have hulen : (lswap v m2 j).length = v.length := length_lswap _ _ _
          have hum2 : (lswap v m2 j).getD m2 default = v.getD j default := by
            rw [hgu m2]
            by_cases he : m2 = j
            · rw [if_pos he, he]
            · rw [if_neg he, if_pos rfl]
          have hu0 : (lswap v m2 j).getD 0 default = v.getD 0 default := by
            rw [hgu 0, if_neg (by omega), if_neg (by omega)]
          have hres := ih m1 (m2 + 1) (j + 1) (lswap v m2 j)
            h1 (by omega) (by omega) (by rw [hulen]; omega)
            (by
              intro t ht1 ht2
              rw [hu0, hgu t, if_neg (by omega), if_neg (by omega)]
              exact hR1 t ht1 ht2)
            (by
              intro t ht1 ht2
              rw [hu0]
              by_cases he : t = m2
              · rw [he, hum2]
                exact heq
              · rw [hgu t, if_neg (by omega), if_neg he]
                exact hR2 t ht1 (by omega))
            (by
              intro t ht1 ht2
              rw [hu0]
              by_cases he : t = j
              · rw [he, hgu j, if_pos rfl]
                exact hR3 m2 (le_refl _) (by omega)
              · rw [hgu t, if_neg he, if_neg (by omega)]
                exact hR3 t (by omega) (by omega))
          obtain ⟨p1, p2, p3, p4, p5, p6, p7, p8, p9⟩ := hres
          rw [hulen] at p2 p6 p9
          exact ⟨p1.trans (lswap_perm v m2 j hm2 hj), p2, by rw [p3, hu0], by omega, p5,
            by omega, p7, p8, p9⟩
        · rw [if_neg heq]
          have hgt : v.getD 0 default < v.getD j default := by
            rcases lt_trichotomy (v.getD j default) (v.getD 0 default) with h | h | h
            · exact absurd h hlt
            · exact absurd h heq
            · exact h
          have hres := ih m1 m2 (j + 1) v h1 h2 (by omega) (by omega) hR1 hR2
            (by
              intro t ht1 ht2
              by_cases he : t = j
              · rw [he]
                exact hgt
              · exact hR3 t ht1 (by omega))
          obtain ⟨p1, p2, p3, p4, p5, p6, p7, p8, p9⟩ := hres
          exact ⟨p1, p2, p3, p4, p5, by omega, p7, p8, p9⟩
    · rw [if_neg hj]
      dsimp only
      refine ⟨List.Perm.refl v, rfl, rfl, le_refl _, h2, by omega, hR1, hR2, ?_⟩
      intro t ht1 ht2
      exact hR3 t ht1 (by omega)

theorem qpartition3_spec (v : List α) (hv : 1 ≤ v.length) :
    (qpartition3 v).1.Perm v ∧ (qpartition3 v).1.length = v.length ∧
      (qpartition3 v).2.1 < (qpartition3 v).2.2 ∧
      (qpartition3 v).2.2 ≤ v.length ∧
      (∀ x ∈ (qpartition3 v).1.take (qpartition3 v).2.1,
        x < (qpartition3 v).1.getD (qpartition3 v).2.1 default) ∧
      (∀ t, (qpartition3 v).2.1 ≤ t → t < (qpartition3 v).2.2 →
        (qpartition3 v).1.getD t default =
          (qpartition3 v).1.getD (qpartition3 v).2.1 default) ∧
      (∀ x ∈ (qpartition3 v).1.drop (qpartition3 v).2.2,
        (qpartition3 v).1.getD (qpartition3 v).2.1 default < x) := by
  obtain ⟨p1, p2, p3, p4, p5, p6, p7, p8, p9⟩ := qpart3Go_spec v.length 1 1 1 v
    (le_refl _) (le_refl _) (le_refl _) (by omega)
    (by intro t ht1 ht2; omega) (by intro t ht1 ht2; omega) (by intro t ht1 ht2; omega)
  have hmax : max 1 v.length = v.length := by omega
  rw [hmax] at p6
  set w := (qpart3Go v.length 1 1 1 v).1 with hw
  set a := (qpart3Go v.length 1 1 1 v).2.1 with ha
  set b := (qpart3Go v.length 1 1 1 v).2.2 with hb
  have ha1_lt : a - 1 < w.length := by omega
  have h0_lt : 0 < w.length := by omega
  have hgr := getD_lswap_fn w (a - 1) 0 ha1_lt h0_lt
  have hq1 : (qpartition3 v).1 = lswap w (a - 1) 0 := rfl
  have hq2 : (qpartition3 v).2.1 = a - 1 := rfl
  have hq3 : (qpartition3 v).2.2 = b := rfl
  rw [hq1, hq2, hq3]
  have hpivot : (lswap w (a - 1) 0).getD (a - 1) default = v.getD 0 default := by
    by_cases he : a - 1 = 0
    · rw [hgr (a - 1), if_pos he, he]
      exact p3
    · rw [hgr (a - 1), if_neg he, if_pos rfl]
      exact p3
  refine ⟨(lswap_perm w (a - 1) 0 ha1_lt h0_lt).trans p1, by rw [length_lswap]; omega,
    by omega, by omega, ?_, ?_, ?_⟩
  · intro x hx
    rcases List.mem_iff_getElem.mp hx with ⟨t, ht, rfl⟩
    have htb : t < a - 1 := by
      rw [List.length_take] at ht
      omega
    have htlt : t < (lswap w (a - 1) 0).length := by
      rw [length_lswap]
      omega
    rw [List.getElem_take, ← getD_eq_getElem_of_lt _ t htlt, hpivot]
    by_cases ht0 : t = 0
    · rw [ht0, hgr 0, if_pos rfl]
      have := p7 (a - 1) (by omega) (by omega)
      rw [p3] at this
      exact this
    · rw [hgr t, if_neg ht0, if_neg (by omega)]
      have := p7 t (by omega) (by omega)
      rw [p3] at this
      exact this
  · intro t ht1 ht2
    rw [hpivot]
    by_cases hta : t = a - 1
    · rw [hta, hpivot]
    · rw [hgr t, if_neg (by omega), if_neg hta]
      have := p8 t (by omega) ht2
      rw [p3] at this
      exact this
  · intro x hx
    rcases List.mem_iff_getElem.mp hx with ⟨t, ht, rfl⟩
    have htlen : b + t < v.length := by
      rw [List.length_drop, length_lswap] at ht
      omega
    have htlt : b + t < (lswap w (a - 1) 0).length := by
      rw [length_lswap]
      omega
    rw [List.getElem_drop, ← getD_eq_getElem_of_lt _ (b + t) htlt, hpivot]
    rw [hgr (b + t), if_neg (by omega), if_neg (by omega)]
    have := p9 (b + t) (by omega) (by omega)
    rw [p3] at this
    exact this

/-- The `while v.len() > 30` loop of `quick_sort_3`, as recursion. -/
def quickSort3Go : Nat → (Nat → Nat) → List α → List α × (Nat → Nat)
  | 0, g, v => (v, g)
  | fuel + 1, g, v =>
    if 30 < v.length then
      if (qpartition3 (lswap v (g 0 % v.length) 0)).2.1 <
          (qpartition3 (lswap v (g 0 % v.length) 0)).1.length -
            (qpartition3 (lswap v (g 0 % v.length) 0)).2.2 then
        ((quickSort3Go fuel (fun k => g (k + 1))
            ((qpartition3 (lswap v (g 0 % v.length) 0)).1.take
              (qpartition3 (lswap v (g 0 % v.length) 0)).2.1)).1 ++
          (((qpartition3 (lswap v (g 0 % v.length) 0)).1.drop
              (qpartition3 (lswap v (g 0 % v.length) 0)).2.1).take
            ((qpartition3 (lswap v (g 0 % v.length) 0)).2.2 -
              (qpartition3 (lswap v (g 0 % v.length) 0)).2.1) ++
          (quickSort3Go fuel
            (quickSort3Go fuel (fun k => g (k + 1))
              ((qpartition3 (lswap v (g 0 % v.length) 0)).1.take
                (qpartition3 (lswap v (g 0 % v.length) 0)).2.1)).2
            ((qpartition3 (lswap v (g 0 % v.length) 0)).1.drop
              (qpartition3 (lswap v (g 0 % v.length) 0)).2.2)).1),
         (quickSort3Go fuel
            (quickSort3Go fuel (fun k => g (k + 1))
              ((qpartition3 (lswap v (g 0 % v.length) 0)).1.take
                (qpartition3 (lswap v (g 0 % v.length) 0)).2.1)).2
            ((qpartition3 (lswap v (g 0 % v.length) 0)).1.drop
              (qpartition3 (lswap v (g 0 % v.length) 0)).2.2)).2)
      else
        ((quickSort3Go fuel
            (quickSort3Go fuel (fun k => g (k + 1))
              ((qpartition3 (lswap v (g 0 % v.length) 0)).1.drop
                (qpartition3 (lswap v (g 0 % v.length) 0)).2.2)).2
            ((qpartition3 (lswap v (g 0 % v.length) 0)).1.take
              (qpartition3 (lswap v (g 0 % v.length) 0)).2.1)).1 ++
          (((qpartition3 (lswap v (g 0 % v.length) 0)).1.drop
              (qpartition3 (lswap v (g 0 % v.length) 0)).2.1).take
            ((qpartition3 (lswap v (g 0 % v.length) 0)).2.2 -
              (qpartition3 (lswap v (g 0 % v.length) 0)).2.1) ++
          (quickSort3Go fuel (fun k => g (k + 1))
            ((qpartition3 (lswap v (g 0 % v.length) 0)).1.drop
              (qpartition3 (lswap v (g 0 % v.length) 0)).2.2)).1),
         (quickSort3Go fuel
            (quickSort3Go fuel (fun k => g (k + 1))
              ((qpartition3 (lswap v (g 0 % v.length) 0)).1.drop
                (qpartition3 (lswap v (g 0 % v.length) 0)).2.2)).2
            ((qpartition3 (lswap v (g 0 % v.length) 0)).1.take
              (qpartition3 (lswap v (g 0 % v.length) 0)).2.1)).2)
    else (insertion_sort v, g)

/-- `quick_sort_3` from src/src/lib.rs, with the random generator as an
injected stream. -/
def quick_sort_3 (g : Nat → Nat) (v : List α) : List α × (Nat → Nat) :=
  quickSort3Go (v.length + 1) g v

theorem quickSort3Go_spec :
    ∀ (fuel : Nat) (g : Nat → Nat) (v : List α), v.length < fuel →
      List.Sorted (· ≤ ·) ((quickSort3Go fuel g v).1) ∧
        ((quickSort3Go fuel g v).1).Perm v := by
  intro fuel
  induction fuel with
  | zero => intro g v h; omega
  | succ fuel ih =>
    intro g v hf
    rw [quickSort3Go]
    by_cases h30 : 30 < v.length
    · rw [if_pos h30]
      have hpv : g 0 % v.length < v.length := Nat.mod_lt _ (by omega)
      have hswlen : (lswap v (g 0 % v.length) 0).length = v.length := length_lswap _ _ _
      have hswperm : (lswap v (g 0 % v.length) 0).Perm v :=
        lswap_perm v _ 0 hpv (by omega)
      obtain ⟨q1, q2, q3, q4, q5, q6, q7⟩ :=
        qpartition3_spec (lswap v (g 0 % v.length) 0) (by omega)
      have hplen : (qpartition3 (lswap v (g 0 % v.length) 0)).1.length = v.length := by
        rw [q2, hswlen]
      rw [hswlen] at q4
      have hpperm : (qpartition3 (lswap v (g 0 % v.length) 0)).1.Perm v := q1.trans hswperm
      have htklen : ((qpartition3 (lswap v (g 0 % v.length) 0)).1.take
          (qpartition3 (lswap v (g 0 % v.length) 0)).2.1).length =
          (qpartition3 (lswap v (g 0 % v.length) 0)).2.1 := by
        rw [List.length_take]
        omega
      have hdplen : ((qpartition3 (lswap v (g 0 % v.length) 0)).1.drop
          (qpartition3 (lswap v (g 0 % v.length) 0)).2.2).length =
          v.length - (qpartition3 (lswap v (g 0 % v.length) 0)).2.2 := by
        rw [List.length_drop, hplen]
      -- middle block: all elements equal to the pivot value
      have hmid_mem : ∀ x ∈ ((qpartition3 (lswap v (g 0 % v.length) 0)).1.drop
            (qpartition3 (lswap v (g 0 % v.length) 0)).2.1).take
          ((qpartition3 (lswap v (g 0 % v.length) 0)).2.2 -
            (qpartition3 (lswap v (g 0 % v.length) 0)).2.1),
          x = (qpartition3 (lswap v (g 0 % v.length) 0)).1.getD
            (qpartition3 (lswap v (g 0 % v.length) 0)).2.1 default := by
        intro x hx
        rcases List.mem_iff_getElem.mp hx with ⟨s, hs, rfl⟩
        have hsb : s < (qpartition3 (lswap v (g 0 % v.length) 0)).2.2 -
            (qpartition3 (lswap v (g 0 % v.length) 0)).2.1 := by
          rw [List.length_take] at hs
          omega
        rw [List.getElem_take, List.getElem_drop,
          ← getD_eq_getElem_of_lt _ _ (by rw [hplen]; omega)]
        exact q6 _ (by omega) (by omega)
      have hmid_sorted : List.Sorted (· ≤ ·)
          (((qpartition3 (lswap v (g 0 % v.length) 0)).1.drop
            (qpartition3 (lswap v (g 0 % v.length) 0)).2.1).take
          ((qpartition3 (lswap v (g 0 % v.length) 0)).2.2 -
            (qpartition3 (lswap v (g 0 % v.length) 0)).2.1)) := by
        rw [List.Sorted, List.pairwise_iff_getElem]
        intro a b ha hb hab
        have h1 := hmid_mem _ (List.getElem_mem ha)
        have h2 := hmid_mem _ (List.getElem_mem hb)
        rw [h1, h2]
      -- the untouched middle plus the tail reassemble the partitioned list
      have hdecomp : (qpartition3 (lswap v (g 0 % v.length) 0)).1.take
            (qpartition3 (lswap v (g 0 % v.length) 0)).2.1 ++
          (((qpartition3 (lswap v (g 0 % v.length) 0)).1.drop
              (qpartition3 (lswap v (g 0 % v.length) 0)).2.1).take
            ((qpartition3 (lswap v (g 0 % v.length) 0)).2.2 -
              (qpartition3 (lswap v (g 0 % v.length) 0)).2.1) ++
            (qpartition3 (lswap v (g 0 % v.length) 0)).1.drop
              (qpartition3 (lswap v (g 0 % v.length) 0)).2.2) =
          (qpartition3 (lswap v (g 0 % v.length) 0)).1 := by
        have hdd : ((qpartition3 (lswap v (g 0 % v.length) 0)).1.drop
            (qpartition3 (lswap v (g 0 % v.length) 0)).2.1).drop
            ((qpartition3 (lswap v (g 0 % v.length) 0)).2.2 -
              (qpartition3 (lswap v (g 0 % v.length) 0)).2.1) =
            (qpartition3 (lswap v (g 0 % v.length) 0)).1.drop
              (qpartition3 (lswap v (g 0 % v.length) 0)).2.2 := by
          rw [List.drop_drop]
          congr 1
          omega
        rw [← hdd, List.take_append_drop, List.take_append_drop]
      have hrec_left : ∀ g2 : Nat → Nat,
          List.Sorted (· ≤ ·) ((quickSort3Go fuel g2
            ((qpartition3 (lswap v (g 0 % v.length) 0)).1.take
              (qpartition3 (lswap v (g 0 % v.length) 0)).2.1)).1) ∧
          ((quickSort3Go fuel g2
            ((qpartition3 (lswap v (g 0 % v.length) 0)).1.take
              (qpartition3 (lswap v (g 0 % v.length) 0)).2.1)).1).Perm
            ((qpartition3 (lswap v (g 0 % v.length) 0)).1.take
              (qpartition3 (lswap v (g 0 % v.length) 0)).2.1) :=
        fun g2 => ih g2 _ (by rw [htklen]; omega)
      have hrec_right : ∀ g2 : Nat → Nat,
          List.Sorted (· ≤ ·) ((quickSort3Go fuel g2
            ((qpartition3 (lswap v (g 0 % v.length) 0)).1.drop
              (qpartition3 (lswap v (g 0 % v.length) 0)).2.2)).1) ∧
          ((quickSort3Go fuel g2
            ((qpartition3 (lswap v (g 0 % v.length) 0)).1.drop
              (qpartition3 (lswap v (g 0 % v.length) 0)).2.2)).1).Perm
            ((qpartition3 (lswap v (g 0 % v.length) 0)).1.drop
              (qpartition3 (lswap v (g 0 % v.length) 0)).2.2) :=
        fun g2 => ih g2 _ (by rw [hdplen]; omega)
      have hassemble : ∀ g2 g3 : Nat → Nat,
          List.Sorted (· ≤ ·)
            ((quickSort3Go fuel g2
              ((qpartition3 (lswap v (g 0 % v.length) 0)).1.take
                (qpartition3 (lswap v (g 0 % v.length) 0)).2.1)).1 ++
              (((qpartition3 (lswap v (g 0 % v.length) 0)).1.drop
                  (qpartition3 (lswap v (g 0 % v.length) 0)).2.1).take
                ((qpartition3 (lswap v (g 0 % v.length) 0)).2.2 -
                  (qpartition3 (lswap v (g 0 % v.length) 0)).2.1) ++
              (quickSort3Go fuel g3
                ((qpartition3 (lswap v (g 0 % v.length) 0)).1.drop
                  (qpartition3 (lswap v (g 0 % v.length) 0)).2.2)).1)) ∧
          ((quickSort3Go fuel g2
              ((qpartition3 (lswap v (g 0 % v.length) 0)).1.take
                (qpartition3 (lswap v (g 0 % v.length) 0)).2.1)).1 ++
            (((qpartition3 (lswap v (g 0 % v.length) 0)).1.drop
                (qpartition3 (lswap v (g 0 % v.length) 0)).2.1).take
              ((qpartition3 (lswap v (g 0 % v.length) 0)).2.2 -
                (qpartition3 (lswap v (g 0 % v.length) 0)).2.1) ++
            (quickSort3Go fuel g3
              ((qpartition3 (lswap v (g 0 % v.length) 0)).1.drop
                (qpartition3 (lswap v (g 0 % v.length) 0)).2.2)).1)).Perm v := by
        intro g2 g3
        obtain ⟨sl, pl⟩ := hrec_left g2
        obtain ⟨sr, pr⟩ := hrec_right g3
        constructor
        · rw [List.Sorted, List.pairwise_append]
          refine ⟨sl, ?_, ?_⟩
          · rw [List.pairwise_append]
            refine ⟨hmid_sorted, sr, ?_⟩
            intro x hx b hb
            rw [hmid_mem x hx]
            exact le_of_lt (q7 b (pr.mem_iff.mp hb))
          · intro x hx b hb
            have hxlt := q5 x (pl.mem_iff.mp hx)
            rcases List.mem_append.mp hb with hb2 | hb2
            · rw [hmid_mem b hb2]
              exact le_of_lt hxlt
            · exact le_trans (le_of_lt hxlt) (le_of_lt (q7 b (pr.mem_iff.mp hb2)))
        · refine (List.Perm.append pl (List.Perm.append (List.Perm.refl _) pr)).trans ?_
          rw [hdecomp]
          exact hpperm
      by_cases hbr : (qpartition3 (lswap v (g 0 % v.length) 0)).2.1 <
          (qpartition3 (lswap v (g 0 % v.length) 0)).1.length -
            (qpartition3 (lswap v (g 0 % v.length) 0)).2.2
      · rw [if_pos hbr]
        exact hassemble _ _
      · rw [if_neg hbr]
        exact hassemble _ _
    · rw [if_neg h30]
      exact ⟨insertion_sort_sorted v, insertion_sort_perm v⟩

theorem quick_sort_3_spec (g : Nat → Nat) (v : List α) :
    List.Sorted (· ≤ ·) ((quick_sort_3 g v).1) ∧ ((quick_sort_3 g v).1).Perm v :=
  quickSort3Go_spec (v.length + 1) g v (by omega)

/-! ## Merge sort, bottom-up with insertion floor (src/src/lib.rs, lines 312-347)

```rust
pub fn merge_sort_bottom_up_insert<T: Ord + Clone>(v: &mut [T]) {
    let mut w: Vec<_> = v.iter().cloned().collect();
    let n = v.len();
    let mut v_to_w = true;
    let mut width = 8;
    for i in (0..n).step_by(2 * width) {
        let end = (i + 2 * width).min(n);
        insertion_sort(&mut v[i..end]);
    }
    while width < n {
        for i in (0..n).step_by(2 * width) {
            let end = (i + 2 * width).min(n);
            if v_to_w {
                merge(&v[i..end], width, &mut w[i..end]);
            } else {
                merge(&w[i..end], width, &mut v[i..end]);
            }
        }
        v_to_w = !v_to_w;
        width *= 2;
    }
    if !v_to_w {
        v.clone_from_slice(&w);
    }
}
```
-/

/-- The initial pass of `merge_sort_bottom_up_insert`:
`for i in (0..n).step_by(2 * width)` applying `insertion_sort` to each
slice `v[i..(i + 2 * width).min(n)]`, spliced back in place. -/
def msbiFirstGo (width : Nat) : Nat → Nat → List α → List α
  | 0, _, v => v
  | f + 1, i, v =>
    if i < v.length then
      msbiFirstGo width f (i + 2 * width)
        (v.take i ++
          insertion_sort ((v.drop i).take (min (i + 2 * width) v.length - i)) ++
          v.drop (min (i + 2 * width) v.length))
    else v

/-- One merge pass over `src` at the given width: each destination block
`[i, (i + 2 * width).min(n))` is entirely overwritten by `merge` of the
corresponding source block, so the pass output is the concatenation of the
per-block merge outputs (the old destination contents are irrelevant). -/
def mergePassGo (width : Nat) : Nat → Nat → List α → List α
  | 0, _, _ => []
  | f + 1, i, src =>
    if i < src.length then
      mergeGo ((src.drop i).take (min (i + 2 * width) src.length - i)) width
          ((src.drop i).take (min (i + 2 * width) src.length - i)).length 0 width ++
        mergePassGo width f (i + 2 * width) src
    else []

/-- The `while width < n` loop: the buffer currently holding the
authoritative data, and the `v_to_w` flag. -/
def msbuLoopGo : Nat → Nat → List α → Bool → List α × Bool
  | 0, _, cur, flag => (cur, flag)
  | f + 1, width, cur, flag =>
    if width < cur.length then
      msbuLoopGo f (2 * width) (mergePassGo width cur.length 0 cur) (!flag)
    else (cur, flag)

/-- `merge_sort_bottom_up_insert` from src/src/lib.rs.  The final
`if !v_to_w { v.clone_from_slice(&w) }` copies the authoritative buffer
back into `v` when needed, so the result is the authoritative contents. -/
def merge_sort_bottom_up_insert (v : List α) : List α :=
  (msbuLoopGo v.length 8 (msbiFirstGo 8 v.length 0 v) true).1

/-- Modelled from the claim's wording: split the sequence into consecutive
blocks of `bw` elements (with a shorter final block) and apply
`insertion_sort` to each block independently. -/
def specInsertBlocksGo (bw : Nat) : Nat → List α → List α
  | 0, v => v
  | f + 1, v =>
    if v = [] then []
    else insertion_sort (v.take bw) ++ specInsertBlocksGo bw f (v.drop bw)

/-- Insertion sort applied blockwise with block width `bw`. -/
def specInsertBlocks (bw : Nat) (v : List α) : List α :=
  specInsertBlocksGo bw v.length v

theorem specInsertBlocksGo_nil (bw f : Nat) : specInsertBlocksGo bw f ([] : List α) = [] := by
  cases f with
  | zero => rfl
  | succ f => rw [specInsertBlocksGo, if_pos rfl]

theorem msbiFirstGo_eq_blocks :
    ∀ (f i : Nat) (v : List α), v.length ≤ f + i →
      msbiFirstGo 8 f i v = v.take i ++ specInsertBlocksGo 16 f (v.drop i) := by
  intro f
  induction f with
  | zero =>
    intro i v hlen
    rw [msbiFirstGo, specInsertBlocksGo, List.take_of_length_le (by omega),
      List.drop_eq_nil_of_le (by omega), List.append_nil]
  | succ f ih =>
    intro i v hlen
    rw [msbiFirstGo]
    by_cases hi : i < v.length
    · rw [if_pos hi]
      have hblen : ((v.drop i).take (min (i + 2 * 8) v.length - i)).length =
          min (i + 2 * 8) v.length - i := by
        rw [List.length_take, List.length_drop]
        omega
      have hslen : (v.take i ++
          insertion_sort ((v.drop i).take (min (i + 2 * 8) v.length - i)) ++
          v.drop (min (i + 2 * 8) v.length)).length = v.length := by
        rw [List.length_append, List.length_append, insertion_sort_length, hblen,
          List.length_take, List.length_drop]
        omega
      rw [ih (i + 2 * 8) _ (by rw [hslen]; omega)]
      have hfront_len : (v.take i ++
          insertion_sort ((v.drop i).take (min (i + 2 * 8) v.length - i))).length =
          min (i + 2 * 8) v.length := by
        rw [List.length_append, insertion_sort_length, hblen, List.length_take]
        omega
      by_cases he : i + 2 * 8 ≤ v.length
      · have hemin : min (i + 2 * 8) v.length = i + 2 * 8 := by omega
        have hfront_len2 : (v.take i ++
            insertion_sort ((v.drop i).take (min (i + 2 * 8) v.length - i))).length =
            i + 2 * 8 := by
          rw [hfront_len]
          omega
        have htk : (v.take i ++
            insertion_sort ((v.drop i).take (min (i + 2 * 8) v.length - i)) ++
            v.drop (min (i + 2 * 8) v.length)).take (i + 2 * 8) =
            v.take i ++ insertion_sort ((v.drop i).take (min (i + 2 * 8) v.length - i)) :=
          List.take_left' hfront_len2
        have hdp : (v.take i ++
            insertion_sort ((v.drop i).take (min (i + 2 * 8) v.length - i)) ++
            v.drop (min (i + 2 * 8) v.length)).drop (i + 2 * 8) =
            v.drop (min (i + 2 * 8) v.length) :=
          List.drop_left' hfront_len2
        rw [htk, hdp]
        have hrhs : specInsertBlocksGo 16 (f + 1) (v.drop i) =
            insertion_sort ((v.drop i).take 16) ++
              specInsertBlocksGo 16 f ((v.drop i).drop 16) := by
          rw [specInsertBlocksGo,
            if_neg (by
              intro hcon
              have := congrArg List.length hcon
              rw [List.length_drop] at this
              simp at this
              omega)]
        have hdd : (v.drop i).drop 16 = v.drop (min (i + 2 * 8) v.length) := by
          rw [List.drop_drop]
          congr 1
          omega
        have h16b : (v.drop i).take (min (i + 2 * 8) v.length - i) =
            (v.drop i).take 16 := by
          congr 1
          omega
        rw [hrhs, hdd, h16b, List.append_assoc]
      · have hemin : min (i + 2 * 8) v.length = v.length := by omega
        have hdrop_end : v.drop (min (i + 2 * 8) v.length) = [] := by
          rw [hemin, List.drop_length]
        rw [hdrop_end, List.append_nil]
        have htk : (v.take i ++
            insertion_sort ((v.drop i).take (min (i + 2 * 8) v.length - i))).take
              (i + 2 * 8) =
            v.take i ++ insertion_sort ((v.drop i).take (min (i + 2 * 8) v.length - i)) :=
          List.take_of_length_le (by rw [hfront_len]; omega)
        have hdp : (v.take i ++
            insertion_sort ((v.drop i).take (min (i + 2 * 8) v.length - i))).drop
              (i + 2 * 8) = [] :=
          List.drop_eq_nil_of_le (by rw [hfront_len]; omega)
        rw [htk, hdp, specInsertBlocksGo_nil]
        have hrhs : specInsertBlocksGo 16 (f + 1) (v.drop i) =
            insertion_sort ((v.drop i).take 16) ++
              specInsertBlocksGo 16 f ((v.drop i).drop 16) := by
          rw [specInsertBlocksGo,
            if_neg (by
              intro hcon
              have := congrArg List.length hcon
              rw [List.length_drop] at this
              simp at this
              omega)]
        have hd16 : (v.drop i).drop 16 = [] := by
          rw [List.drop_drop]
          exact List.drop_eq_nil_of_le (by omega)
        have ht16 : (v.drop i).take 16 = (v.drop i).take (min (i + 2 * 8) v.length - i) := by
          rw [hemin]
          rw [List.take_of_length_le (by rw [List.length_drop]; omega),
            List.take_of_length_le (by rw [List.length_drop])]
        rw [hrhs, hd16, specInsertBlocksGo_nil, List.append_nil, ht16, List.append_nil]
    · rw [if_neg hi]
      rw [List.take_of_length_le (by omega), List.drop_eq_nil_of_le (by omega),
        specInsertBlocksGo_nil, List.append_nil]

theorem msbiFirst_eq_blocks16 (v : List α) :
    msbiFirstGo 8 v.length 0 v = specInsertBlocks 16 v := by
  rw [msbiFirstGo_eq_blocks v.length 0 v (by omega), List.take_zero, List.drop_zero,
    List.nil_append]
  rfl

set_option maxRecDepth 100000 in
example : msbiFirstGo 8
    ([16, 15, 14, 13, 12, 11, 10, 9, 8, 7, 6, 5, 4, 3, 2, 1] : List Int).length 0
    [16, 15, 14, 13, 12, 11, 10, 9, 8, 7, 6, 5, 4, 3, 2, 1] =
    [1, 2, 3, 4, 5, 6, 7, 8, 9, 10, 11, 12, 13, 14, 15, 16] := by decide

set_option maxRecDepth 100000 in
example : specInsertBlocks 8 ([16, 15, 14, 13, 12, 11, 10, 9, 8, 7, 6, 5, 4, 3, 2, 1] : List Int) =
    [9, 10, 11, 12, 13, 14, 15, 16, 1, 2, 3, 4, 5, 6, 7, 8] := by decide

set_option maxRecDepth 100000 in
example : merge_sort_bottom_up_insert
    ([16, 3, 15, 4, 14, 5, 13, 6, 12, 7, 11, 8, 10, 9, 2, 1, 17] : List Int) =
    [1, 2, 3, 4, 5, 6, 7, 8, 9, 10, 11, 12, 13, 14, 15, 16, 17] := by decide

/-! ## The claims -/

/-- C1: for every input sequence, each public sorting routine of the library
returns a sequence in non-decreasing order whose multiset of elements equals
that of the input (`selection_sort` is stated upon successful return, and the
two randomized quicksorts for every stream of generator values). -/
theorem claim_all_routines_sorted_perm (v : List α) :
    (∃ r, gnome_sort v = some r ∧ List.Sorted (· ≤ ·) r ∧ r.Perm v) ∧
    List.Sorted (· ≤ ·) (bubble_sort v) ∧ (bubble_sort v).Perm v ∧
    List.Sorted (· ≤ ·) (insertion_sort v) ∧ (insertion_sort v).Perm v ∧
    List.Sorted (· ≤ ·) (shell_sort v) ∧ (shell_sort v).Perm v ∧
    (∀ r, selection_sort v = some r → List.Sorted (· ≤ ·) r ∧ r.Perm v) ∧
    (∀ g : Nat → Nat,
      List.Sorted (· ≤ ·) ((quick_sort_3 g v).1) ∧ ((quick_sort_3 g v).1).Perm v) ∧
    (∀ g : Nat → Nat,
      List.Sorted (· ≤ ·) ((quick_sort g v).1) ∧ ((quick_sort g v).1).Perm v) ∧
    List.Sorted (· ≤ ·) (heap_sort v) ∧ (heap_sort v).Perm v ∧
    List.Sorted (· ≤ ·) (merge_sort_top_down v) ∧ (merge_sort_top_down v).Perm v :=
  ⟨gnome_sort_spec v, bubble_sort_sorted v, bubble_sort_perm v,
    insertion_sort_sorted v, insertion_sort_perm v, shell_sort_sorted v, shell_sort_perm v,
    fun r h => selection_sort_spec v r h, fun g => quick_sort_3_spec g v,
    fun g => quick_sort_spec g v, (heap_sort_sorted_perm v).1, (heap_sort_sorted_perm v).2,
    merge_sort_top_down_sorted v, merge_sort_top_down_perm v⟩

/-- C2: inputs of length 0 and 1 are returned unchanged by every routine —
except `selection_sort`, whose `v.len() - 1` underflows in `usize` on the
empty slice and panics (modelled as `none`), refuting the claim that every
operation is total and cannot fail. -/
theorem claim_length_le_one_behavior :
    gnome_sort ([] : List Int) = some [] ∧ gnome_sort ([42] : List Int) = some [42] ∧
    bubble_sort ([] : List Int) = [] ∧ bubble_sort ([42] : List Int) = [42] ∧
    insertion_sort ([] : List Int) = [] ∧ insertion_sort ([42] : List Int) = [42] ∧
    shell_sort ([] : List Int) = [] ∧ shell_sort ([42] : List Int) = [42] ∧
    heap_sort ([] : List Int) = [] ∧ heap_sort ([42] : List Int) = [42] ∧
    merge_sort_top_down ([] : List Int) = [] ∧
    merge_sort_top_down ([42] : List Int) = [42] ∧
    merge_sort_bottom_up_insert ([] : List Int) = [] ∧
    merge_sort_bottom_up_insert ([42] : List Int) = [42] ∧
    (∀ g : Nat → Nat,
      (quick_sort g ([] : List Int)).1 = [] ∧ (quick_sort g ([42] : List Int)).1 = [42] ∧
      (quick_sort_3 g ([] : List Int)).1 = [] ∧ (quick_sort_3 g ([42] : List Int)).1 = [42]) ∧
    selection_sort ([] : List Int) = none ∧ selection_sort ([42] : List Int) = some [42] :=
  ⟨by decide, by decide, by decide, by decide, by decide, by decide, by decide, by decide,
    by decide, by decide, by decide, by decide, by decide, by decide,
    fun g => ⟨rfl, rfl, rfl, rfl⟩, rfl, by decide⟩

/-- C3: `gnome_sort` produces exactly the same end-to-end result as
`insertion_sort` on every input sequence. -/
theorem claim_gnome_eq_insertion (v : List α) :
    gnome_sort v = some (insertion_sort v) := by
  obtain ⟨r, heq, hs, hp⟩ := gnome_sort_spec v
  rw [heq]
  congr 1
  exact List.eq_of_perm_of_sorted (hp.trans (insertion_sort_perm v).symm) hs
    (insertion_sort_sorted v)

/-- C4: for every input sequence and every two streams of generator values,
`quick_sort` and `quick_sort_3` produce the same final result, the
non-decreasing permutation of the input: the output does not depend on the
random choices. -/
theorem claim_quick_sorts_randomness_independent (g₁ g₂ : Nat → Nat) (v : List α) :
    (quick_sort g₁ v).1 = (quick_sort_3 g₂ v).1 ∧
    (quick_sort g₁ v).1 = (quick_sort g₂ v).1 ∧
    (quick_sort_3 g₁ v).1 = (quick_sort_3 g₂ v).1 ∧
    List.Sorted (· ≤ ·) ((quick_sort g₁ v).1) ∧ ((quick_sort g₁ v).1).Perm v := by
  obtain ⟨hs1, hp1⟩ := quick_sort_spec g₁ v
  obtain ⟨hs2, hp2⟩ := quick_sort_spec g₂ v
  obtain ⟨hs3, hp3⟩ := quick_sort_3_spec g₁ v
  obtain ⟨hs4, hp4⟩ := quick_sort_3_spec g₂ v
  exact ⟨List.eq_of_perm_of_sorted (hp1.trans hp4.symm) hs1 hs4,
    List.eq_of_perm_of_sorted (hp1.trans hp2.symm) hs1 hs2,
    List.eq_of_perm_of_sorted (hp3.trans hp4.symm) hs3 hs4, hs1, hp1⟩

/-- C5: when `source[0..half)` and `source[half..end)` are each non-decreasing
and the destination has the source's length, `merge` writes the destination in
non-decreasing order; and whenever the current left element is
less-than-or-equal to the current right element, the loop takes the left
element first (left-biased tie-break, condition `from[i] <= from[j]`). -/
theorem claim_merge_sorted_left_biased (f t : List α) (half : Nat)
    (hhalf : half ≤ f.length) (hlen : t.length = f.length)
    (hs1 : List.Sorted (· ≤ ·) (f.take half))
    (hs2 : List.Sorted (· ≤ ·) (f.drop half)) :
    List.Sorted (· ≤ ·) (merge f half t) ∧
    ∀ (k i j : Nat), i < half → j < f.length →
      f.getD i default ≤ f.getD j default →
      mergeGo f half (k + 1) i j = f.getD i default :: mergeGo f half k (i + 1) j := by
  refine ⟨merge_sorted f t half hhalf hlen hs1 hs2, ?_⟩
  intro k i j hi hj hle
  rw [mergeGo, if_pos ⟨hi, Or.inr hle⟩]

/-- Witness for C5 at `from = [1, 3, 2, 3]`, `half = 2`, `to = [0, 0, 0, 0]`. -/
theorem claim_merge_sorted_left_biased_witness :
    List.Sorted (· ≤ ·) (merge ([1, 3, 2, 3] : List Int) 2 [0, 0, 0, 0]) ∧
    ∀ (k i j : Nat), i < 2 → j < ([1, 3, 2, 3] : List Int).length →
      ([1, 3, 2, 3] : List Int).getD i default ≤ ([1, 3, 2, 3] : List Int).getD j default →
      mergeGo ([1, 3, 2, 3] : List Int) 2 (k + 1) i j =
        ([1, 3, 2, 3] : List Int).getD i default ::
          mergeGo ([1, 3, 2, 3] : List Int) 2 k (i + 1) j :=
  claim_merge_sorted_left_biased [1, 3, 2, 3] [0, 0, 0, 0] 2 (by decide) (by decide)
    (by decide) (by decide)

/-- C6: after the heapify loop of `heap_sort` (phase 1, before any
extraction), the max-heap property holds at every index: the element at `i`
is at least each existing child at `2i+1` and `2i+2`. -/
theorem claim_heapify_max_heap (v : List α) (i : Nat) : heapAt (heapify v) i :=
  heapify_heap v i

/-- C7: `shell_sort`'s starting gap is `gapRec K`, the FIRST value of the
recurrence `h = 3h+1` that EXCEEDS `n/9` (every earlier value is `≤ n/9`),
and the gap sequence descends via `h = h/3` through every recurrence value
down to and including 1 — not the largest gap `h` with `h ≤ n/9` as claimed. -/
theorem claim_shell_gap_sequence (n : Nat) :
    ∃ K, shellStart n = gapRec K ∧ n / 9 < gapRec K ∧
      (∀ j, j < K → gapRec j ≤ n / 9) ∧
      shellGaps n = ((List.range (K + 1)).reverse.map gapRec) :=
  shellGaps_spec n

/-- Counterexample to C7 as stated: for `n = 9` the starting gap is 4,
which does not satisfy `h ≤ n/9 = 1`. -/
theorem claim_shell_gap_counterexample :
    shellStart 9 = 4 ∧ shellGaps 9 = [4, 1] ∧ ¬(shellStart 9 ≤ 9 / 9) := by decide

/-- C8: in `merge_sort_bottom_up_insert` the starting run width is 8, but the
first pass applies insertion sort to consecutive blocks of `2 * width = 16`
elements (shorter final block), not blocks of 8, before any merging begins. -/
theorem claim_msbi_first_pass_blocks16 (v : List α) :
    msbiFirstGo 8 v.length 0 v = specInsertBlocks 16 v ∧
    merge_sort_bottom_up_insert v =
      (msbuLoopGo v.length 8 (specInsertBlocks 16 v) true).1 := by
  refine ⟨msbiFirst_eq_blocks16 v, ?_⟩
  unfold merge_sort_bottom_up_insert
  rw [msbiFirst_eq_blocks16 v]

set_option maxRecDepth 100000 in
/-- Counterexample to C8 as stated: on a descending 16-element input the
first pass fully sorts the single 16-element block, which differs from
insertion-sorting two blocks of 8. -/
theorem claim_msbi_first_pass_counterexample :
    msbiFirstGo 8 ([16, 15, 14, 13, 12, 11, 10, 9, 8, 7, 6, 5, 4, 3, 2, 1] : List Int).length 0
        [16, 15, 14, 13, 12, 11, 10, 9, 8, 7, 6, 5, 4, 3, 2, 1] ≠
      specInsertBlocks 8 [16, 15, 14, 13, 12, 11, 10, 9, 8, 7, 6, 5, 4, 3, 2, 1] := by
  decide

/-- C9: on an already-sorted input of length `n ≥ 1`, `bubble_sort` leaves the
sequence unchanged and terminates after a single pass with exactly `n - 1`
adjacent-pair comparisons. -/
theorem claim_bubble_sorted_single_pass (v : List α)
    (hs : List.Sorted (· ≤ ·) v) (h1 : 1 ≤ v.length) :
    bubble_sort_instr v = (v, v.length - 1, 1) :=
  bubble_instr_sorted_input v hs h1

/-- Witness for C9 at the sorted input `[1, 2, 3]`. -/
theorem claim_bubble_sorted_single_pass_witness :
    bubble_sort_instr ([1, 2, 3] : List Int) = ([1, 2, 3], 2, 1) :=
  claim_bubble_sorted_single_pass [1, 2, 3] (by decide) (by decide)

/-- C10: `gnome_sort` terminates on every finite input: the loop reaches
`i = v.len()` within `2 * inversions v + v.length + 1` steps (the
well-founded measure `2 * inversions + (length - cursor)` decreases at every
step), so the fuelled loop never runs out of fuel. -/
theorem claim_gnome_terminates (v : List α) :
    ∃ r, gnomeGo (2 * inversions v + v.length + 1) 0 v = some r ∧
      gnome_sort v = some r := by
  obtain ⟨r, heq, _, _⟩ := gnome_sort_spec v
  exact ⟨r, heq, heq⟩
